import Mathlib

/-!
# Complexity: scene hierarchy and model matrix

A shallow embedding of `components::Hierarchy` (src/main.cpp, lines 60-111)
and of the model-matrix computation of `renderSystem` (lines 412-420), with
the properties of the specification that concern them.

An entity handle is either null or names an entity; the component store of
`Hierarchy` maps an entity to its component when it holds one.  A C++ reference
obtained from `get`/`getOrAdd` is the entity whose component it aliases: every
read through it looks the component up in the current store, every write
through it updates one field of the current store, so aliasing between
`entityHierarchy`, `parentHierarchy` and the siblings is kept.  The handle
arguments of `setParent` are references too (`HandleRef`): a variable of the
caller, or a field of a stored component that the call may overwrite.

A call returns `Except Failure World`: the store after the call, or the reason
why the call did not complete.  The `while (true)` loop of `setParent` runs on
a step budget (`fuel`); the theorems show which budget is enough.
-/

namespace Complexity

/-! ## Data model -/

/-- Modelled from the spec: `ecs::EntityHandle` of the absent ecs.hpp, a
reference to an entity that may be null. `none` is the null handle
`ecs::EntityHandle()`, falsy in a boolean context; `some i` refers to entity
`i`. The two mutators create and destroy no entity, so the generation of a
handle is left out. -/
abbrev EntityHandle := Option Nat

/-- Component `components::Hierarchy`: four entity handles. -/
structure Hierarchy where
  parent : EntityHandle
  firstChild : EntityHandle
  prevSibling : EntityHandle
  nextSibling : EntityHandle
deriving DecidableEq, Repr

/-- Default-constructed component: all four handles null. -/
instance : Inhabited Hierarchy := ⟨⟨none, none, none, none⟩⟩

/-- Modelled from the spec: the component store of `Hierarchy` kept by the
`ecs::World` of the absent ecs.hpp, with at most one component per entity. -/
abbrev World := Nat → Option Hierarchy

/-- Ways in which a call does not complete: an access through the null handle,
a `get` on an entity without the component, a failed `assert`. `outOfFuel` is
the step budget of the `while (true)` loop running out; it is not a failure of
the program. -/
inductive Failure where
  | nullHandle
  | missingComponent
  | assertion
  | outOfFuel
deriving DecidableEq, Repr

/-- Read through a reference to the component of entity `e`. -/
def rd (w : World) (e : Nat) : Hierarchy := (w e).getD default

/-- Write through a reference to the component of entity `e`. -/
def modify (w : World) (e : Nat) (f : Hierarchy → Hierarchy) : World :=
  fun x => if x = e then (w x).map f else w x

/-- Assignment `ref.parent = v` through a reference to the component of `e`. -/
def wrParent (w : World) (e : Nat) (v : EntityHandle) : World :=
  modify w e fun h => { h with parent := v }

/-- Assignment `ref.firstChild = v` through a reference to the component of `e`. -/
def wrFirstChild (w : World) (e : Nat) (v : EntityHandle) : World :=
  modify w e fun h => { h with firstChild := v }

/-- Assignment `ref.prevSibling = v` through a reference to the component of `e`. -/
def wrPrev (w : World) (e : Nat) (v : EntityHandle) : World :=
  modify w e fun h => { h with prevSibling := v }

/-- Assignment `ref.nextSibling = v` through a reference to the component of `e`. -/
def wrNext (w : World) (e : Nat) (v : EntityHandle) : World :=
  modify w e fun h => { h with nextSibling := v }

/-- Modelled from the spec: `EntityHandle::get<Hierarchy>()` of the absent ecs.hpp.
It fails on the null handle and reports a missing component when the entity holds
none; otherwise it yields a reference to the component. -/
def get (w : World) (h : EntityHandle) : Except Failure Nat :=
  match h with
  | none => .error .nullHandle
  | some e => if (w e).isSome then .ok e else .error .missingComponent

/-- Modelled from the spec: `EntityHandle::getOrAdd<Hierarchy>()` of the absent
ecs.hpp. It returns the existing component or inserts a default-constructed
one; only the null handle makes it fail. -/
def getOrAdd (w : World) (h : EntityHandle) : Except Failure (World × Nat) :=
  match h with
  | none => .error .nullHandle
  | some e =>
    if (w e).isSome then .ok (w, e)
    else .ok (fun x => if x = e then some default else w x, e)

/-- The C `assert`, enabled as in a debug build. -/
def assert (b : Bool) : Except Failure Unit :=
  if b then .ok () else .error .assertion

/-! ## The two mutators -/

/-- `Hierarchy::removeParent` (main.cpp 66-85). -/
def removeParent (w : World) (entity : EntityHandle) : Except Failure World := do
  let e ← get w entity
  let w1 ←
    if (rd w e).parent.isSome then do
      let p ← get w (rd w e).parent
      assert (rd w p).firstChild.isSome
      let w2 ←
        if (rd w p).firstChild = entity then do
          assert (rd w e).prevSibling.isNone
          pure (wrFirstChild w p (rd w e).nextSibling)
        else do
          assert (rd w e).prevSibling.isSome
          let q ← get w (rd w e).prevSibling
          pure (wrNext w q (rd w e).nextSibling)
      let n ← get w2 (rd w2 e).nextSibling
      pure (wrPrev w2 n (rd w2 e).prevSibling)
    else pure w
  pure (wrNext (wrPrev (wrParent w1 e none) e none) e none)

/-- The loop of `setParent` (main.cpp 98-105): follow `nextSibling` from `last`
until a node without next sibling. Returns the final `last` and the number of
times `last = h.nextSibling` ran. -/
def lastSibling : Nat → World → EntityHandle → Except Failure (EntityHandle × Nat)
  | 0, _, _ => .error .outOfFuel
  | fuel + 1, w, last => do
    let c ← get w last
    if (rd w c).nextSibling.isSome then do
      let r ← lastSibling fuel w (rd w c).nextSibling
      pure (r.1, r.2 + 1)
    else pure (last, 0)

/-- The four fields of a `Hierarchy` component. -/
inductive Field where
  | parent
  | firstChild
  | prevSibling
  | nextSibling
deriving DecidableEq, Repr

/-- The handle held in field `f` of the component `h`. -/
def Field.get (f : Field) (h : Hierarchy) : EntityHandle :=
  match f with
  | .parent => h.parent
  | .firstChild => h.firstChild
  | .prevSibling => h.prevSibling
  | .nextSibling => h.nextSibling

/-- An argument of type `ecs::EntityHandle&`: the mutators take their handles
by reference, so the argument is an lvalue, either a variable of the caller
holding the handle `h` (`var h`) or field `f` of the stored component of entity
`x` (`field x f`), which the call itself may overwrite. -/
inductive HandleRef where
  | var (h : EntityHandle)
  | field (x : Nat) (f : Field)
deriving DecidableEq, Repr

/-- The handle read through a reference in the store `w`. -/
def HandleRef.read (w : World) : HandleRef → EntityHandle
  | .var h => h
  | .field x f => f.get (rd w x)

/-- `Hierarchy::setParent` (main.cpp 87-110). Both handles are references:
`entity` is read again at lines 90, 94 and 106 and `parent` at lines 91 and
92, each time in the store as the earlier lines have left it, while
`entityHierarchy` and `parentHierarchy` stay bound to the components they were
taken from. `removeParent` reads its argument at lines 68 and 72 only, before
its first write, so it gets the handle read at the call. -/
def setParent (fuel : Nat) (w : World) (entity parent : HandleRef) :
    Except Failure World := do
  let w1 ← removeParent w (entity.read w)
  let (w2, e) ← getOrAdd w1 (entity.read w1)
  let w3 := wrParent w2 e (parent.read w2)
  let (w4, p) ← getOrAdd w3 (parent.read w3)
  let w5 ←
    if (rd w4 p).firstChild.isNone then
      pure (wrPrev (wrFirstChild w4 p (entity.read w4)) e none)
    else do
      let r ← lastSibling fuel w4 (rd w4 p).firstChild
      let l ← get w4 r.1
      pure (wrPrev (wrNext w4 l (entity.read w4)) e r.1)
  pure (wrNext w5 e none)

/-- `setParent` called on two variables of the caller that hold the handles
`entity` and `parent`: no write of the call reaches them, so each is read with
the same value throughout (`setParent_var`). -/
def setParentVal (fuel : Nat) (w : World) (entity parent : EntityHandle) :
    Except Failure World := do
  let w1 ← removeParent w entity
  let (w2, e) ← getOrAdd w1 entity
  let w3 := wrParent w2 e parent
  let (w4, p) ← getOrAdd w3 parent
  let w5 ←
    if (rd w4 p).firstChild.isNone then
      pure (wrPrev (wrFirstChild w4 p entity) e none)
    else do
      let r ← lastSibling fuel w4 (rd w4 p).firstChild
      let l ← get w4 r.1
      pure (wrPrev (wrNext w4 l entity) e r.1)
  pure (wrNext w5 e none)

/-! ## The sibling-list invariant -/

/-- The walk from handle `cur` along `nextSibling` visits exactly the nodes of
the list, in order, and ends on a null handle; every node holds a component,
the first has `prevSibling = prev` and each later one has the node before it
as `prevSibling`. -/
def SiblingChain (w : World) : EntityHandle → EntityHandle → List Nat → Prop
  | _, cur, [] => cur = none
  | prev, cur, a :: rest =>
    cur = some a ∧ (w a).isSome = true ∧ (rd w a).prevSibling = prev ∧
      SiblingChain w (some a) (rd w a).nextSibling rest

instance instDecidableSiblingChain (w : World) :
    (prev cur : EntityHandle) → (l : List Nat) → Decidable (SiblingChain w prev cur l)
  | _, cur, [] => inferInstanceAs (Decidable (cur = none))
  | prev, cur, a :: rest =>
    have := instDecidableSiblingChain w (some a) (rd w a).nextSibling rest
    inferInstanceAs (Decidable (cur = some a ∧ (w a).isSome = true ∧
      (rd w a).prevSibling = prev ∧
      SiblingChain w (some a) (rd w a).nextSibling rest))

/-- The list `l` is the child list of `p`: the walk from `p.firstChild` visits
`l`, each node once, and its nodes are exactly the entities whose parent is `p`. -/
def ChildList (w : World) (p : Nat) (l : List Nat) : Prop :=
  SiblingChain w none (rd w p).firstChild l ∧ l.Nodup ∧
    ∀ e, e ∈ l ↔ (rd w e).parent = some p

/-- The sibling-list invariant of the hierarchy: every entity `p` has a child
list, visited by the walk from `p.firstChild` along `nextSibling`, that holds
exactly the entities whose parent is `p`, each once. -/
def SiblingListInv (w : World) : Prop := ∀ p, ∃ l, ChildList w p l

/-- Worlds `w` and `v` agree on what a sibling walk reads at `x`. -/
def SameLinks (w v : World) (x : Nat) : Prop :=
  ((w x).isSome = true → (v x).isSome = true) ∧
    (rd v x).prevSibling = (rd w x).prevSibling ∧
    (rd v x).nextSibling = (rd w x).nextSibling

/-- The links of `w2` are those of `w` with `e`, whose next sibling is `n`,
spliced out of the child list of `p`. -/
def Spliced (w w2 : World) (e p n : Nat) : Prop :=
  (∀ x, (w2 x).isSome = (w x).isSome) ∧
  (∀ x, (rd w2 x).parent = if x = e then none else (rd w x).parent) ∧
  (∀ x, (rd w2 x).firstChild
      = if x = p ∧ (rd w p).firstChild = some e then some n else (rd w x).firstChild) ∧
  (∀ x, (rd w2 x).prevSibling
      = if x = e then none else if x = n then (rd w e).prevSibling
        else (rd w x).prevSibling) ∧
  (∀ x, (rd w2 x).nextSibling
      = if x = e then none else if (rd w e).prevSibling = some x then some n
        else (rd w x).nextSibling)

/-- The store after `getOrAdd` on entity `e`. -/
def ensure (w : World) (e : Nat) : World :=
  if (w e).isSome then w else fun x => if x = e then some default else w x

/-- The links of `v` are those of `w` with `e` appended to the child list `l`
of `p`. -/
def Appended (w v : World) (e p : Nat) (l : List Nat) : Prop :=
  (∀ x, (v x).isSome = ((w x).isSome || decide (x = p))) ∧
  (∀ x, (rd v x).parent = if x = e then some p else (rd w x).parent) ∧
  (∀ x, (rd v x).firstChild
      = if x = p ∧ l = [] then some e else (rd w x).firstChild) ∧
  (∀ x, (rd v x).prevSibling = if x = e then l.getLast? else (rd w x).prevSibling) ∧
  (∀ x, (rd v x).nextSibling
      = if x = e then none else if l.getLast? = some x then some e
        else (rd w x).nextSibling)

/-- One call of a mutator of the hierarchy on handles held in variables of the
caller. -/
inductive Call where
  | setParent (entity parent : EntityHandle)
  | removeParent (entity : EntityHandle)

/-- Run one call. -/
def Call.run (fuel : Nat) (w : World) : Call → Except Failure World
  | .setParent entity parent => Complexity.setParent fuel w (.var entity) (.var parent)
  | .removeParent entity => Complexity.removeParent w entity

/-- Run a sequence of calls; the first call that fails ends the run. -/
def runCalls (fuel : Nat) : World → List Call → Except Failure World
  | w, [] => .ok w
  | w, c :: cs => c.run fuel w >>= fun w1 => runCalls fuel w1 cs

/-- A world in which no entity holds a component. -/
def emptyWorld : World := fun _ => none

/-- Every entity without parent has null sibling links. -/
def RootsClean (w : World) : Prop :=
  ∀ e, (rd w e).parent = none → (rd w e).prevSibling = none ∧ (rd w e).nextSibling = none

/-- A world in which every entity holds a default component. -/
def freshWorld : World := fun _ => some default

/-- The world reached from the fresh world by a sequence of calls (the fresh
world itself when a call of the sequence fails). -/
def worldAfter (fuel : Nat) (calls : List Call) : World :=
  match runCalls fuel freshWorld calls with
  | .ok w => w
  | .error _ => freshWorld

/-- Entity 0 with the two children 1 and 2, attached in this order. -/
def twoChildren : World :=
  worldAfter 2 [.setParent (some 1) (some 0), .setParent (some 2) (some 0)]

/-- Entity 0 with the three children 1, 2 and 3, attached in this order. -/
def threeChildren : World :=
  worldAfter 3 [.setParent (some 1) (some 0), .setParent (some 2) (some 0),
    .setParent (some 3) (some 0)]

/-- The sibling walk from the first child of `p` ends on `x`: the loop of
`setParent` started on `p.firstChild` stops with `last = x`. -/
def WalkEnd (w : World) (p x : Nat) : Prop :=
  ∃ fuel k, lastSibling fuel w (rd w p).firstChild = .ok (some x, k)

/-- Every field in which `v` differs from `w` is one of: the parent, previous
or next sibling of `e`; the first child of the old parent of `e` or of
`newParent`; the next sibling of the old previous sibling of `e`; the previous
sibling of the old next sibling of `e`; the next sibling of a node in `last`.
No entity loses its component, and only `newParent` may gain one. -/
def Frame (w v : World) (e : Nat) (newParent : EntityHandle) (last : Nat → Prop) : Prop :=
  (∀ x, (w x).isSome = true → (v x).isSome = true) ∧
  (∀ x, newParent ≠ some x → (v x).isSome = (w x).isSome) ∧
  (∀ x, x ≠ e → (rd v x).parent = (rd w x).parent) ∧
  (∀ x, (rd w e).parent ≠ some x → newParent ≠ some x →
    (rd v x).firstChild = (rd w x).firstChild) ∧
  (∀ x, x ≠ e → (rd w e).nextSibling ≠ some x →
    (rd v x).prevSibling = (rd w x).prevSibling) ∧
  (∀ x, x ≠ e → (rd w e).prevSibling ≠ some x → ¬ last x →
    (rd v x).nextSibling = (rd w x).nextSibling)

/-- The entity a call is made on. -/
def Call.entity : Call → EntityHandle
  | .setParent entity _ => entity
  | .removeParent entity => entity

/-- The new parent a call gives to its entity (null for `removeParent`). -/
def Call.newParent : Call → EntityHandle
  | .setParent _ parent => parent
  | .removeParent _ => none

/-- The node `x` is the former last child of the new parent of the call: the
sibling walk from the first child of the new parent, made once the entity is
detached from its old parent, ends on `x`. A `removeParent` call has none. -/
def formerLast (w : World) : Call → Nat → Prop
  | .setParent entity parent, x =>
    ∃ w1 p, parent = some p ∧ removeParent w entity = .ok w1 ∧ WalkEnd w1 p x
  | .removeParent _, _ => False

/-- The parent of `x` is `y`. -/
def ParentLink (w : World) (x y : Nat) : Prop := (rd w x).parent = some y

/-- Entity `a` is an ancestor of `x`: it is reached from `x` by one or more
parent links. Then `x` is a descendant of `a`. -/
def Ancestor (w : World) (a x : Nat) : Prop := Relation.TransGen (ParentLink w) x a

/-- The parent links form a forest: no entity is its own ancestor. -/
def Forest (w : World) : Prop := ∀ x, ¬ Ancestor w x x

/-- Entity 1 is the only child of entity 0. -/
def oneChild : World := worldAfter 1 [.setParent (some 1) (some 0)]

/-- The store after `setParent(h0.firstChild, e4)` in the world where entity 0
has the children 1, 2 and 3: the first argument is the `firstChild` field of
the component of entity 0 itself. -/
def aliasedResult : World :=
  match setParent 3 threeChildren (.field 0 .firstChild) (.var (some 4)) with
  | .ok v => v
  | .error _ => threeChildren

/-- Entity 1 is its own parent and first child, followed by its child 2. -/
def selfParent : World :=
  worldAfter 1 [.setParent (some 1) (some 1), .setParent (some 2) (some 1)]

/-! ## Model matrix of the render system -/

/-- The model matrix `renderSystem` (main.cpp 415-418) computes for an entity
with component `hierarchy` and own matrix `transform`. The Transform store is
`transforms`: the matrix of each entity that has a Transform. -/
def modelMatrix {M : Type} [Monoid M] (transforms : Nat → Option M)
    (hierarchy : Hierarchy) (transform : M) : M :=
  match hierarchy.parent with
  | none => transform
  | some p =>
    match transforms p with
    | some m => m * transform
    | none => transform

/-- Follows the words of the specification: the resolved world-space matrix,
the product of the matrices of the ancestors, outermost first, times the own
matrix. The chain of parents is walked for at most `depth` levels and ends at a
null parent or at a parent without Transform. -/
def resolvedMatrix {M : Type} [Monoid M] (w : World) (transforms : Nat → Option M) :
    Nat → Hierarchy → M → M
  | 0, _, own => own
  | depth + 1, h, own =>
    match h.parent with
    | none => own
    | some p =>
      match transforms p with
      | some m => resolvedMatrix w transforms depth (rd w p) m * own
      | none => own

/-- Entity 2 is a child of entity 1, which is a child of entity 0. -/
def grandchild : World :=
  worldAfter 1 [.setParent (some 1) (some 0), .setParent (some 2) (some 1)]

/-! ## Reading and writing fields -/

theorem setParent_var (fuel : Nat) (w : World) (entity parent : EntityHandle) :
    setParent fuel w (.var entity) (.var parent) = setParentVal fuel w entity parent := rfl

@[simp]
theorem ok_bind {α β : Type} (a : α) (f : α → Except Failure β) :
    (Except.ok a >>= f) = f a := rfl

@[simp]
theorem error_bind {α β : Type} (x : Failure) (f : α → Except Failure β) :
    (Except.error x >>= f) = Except.error x := rfl

@[simp]
theorem pure_eq_ok {α : Type} (a : α) : (pure a : Except Failure α) = Except.ok a := rfl

@[simp]
theorem map_ok {α β : Type} (a : α) (f : α → β) :
    (f <$> (Except.ok a : Except Failure α)) = Except.ok (f a) := rfl

@[simp]
theorem map_error {α β : Type} (x : Failure) (f : α → β) :
    (f <$> (Except.error x : Except Failure α)) = Except.error x := rfl

theorem rd_modify (w : World) (e x : Nat) (f : Hierarchy → Hierarchy) :
    rd (modify w e f) x = if x = e ∧ (w e).isSome = true then f (rd w e) else rd w x := by
  unfold rd modify
  by_cases hx : x = e
  · subst hx
    cases h : w x <;> simp [h]
  · simp [hx]

@[simp]
theorem isSome_modify (w : World) (e x : Nat) (f : Hierarchy → Hierarchy) :
    ((modify w e f) x).isSome = (w x).isSome := by
  unfold modify
  by_cases hx : x = e
  · subst hx; cases h : w x <;> simp [h]
  · simp [hx]

@[simp]
theorem isSome_wrParent (w : World) (e x : Nat) (v : EntityHandle) :
    ((wrParent w e v) x).isSome = (w x).isSome := isSome_modify ..
@[simp]
theorem isSome_wrFirstChild (w : World) (e x : Nat) (v : EntityHandle) :
    ((wrFirstChild w e v) x).isSome = (w x).isSome := isSome_modify ..
@[simp]
theorem isSome_wrPrev (w : World) (e x : Nat) (v : EntityHandle) :
    ((wrPrev w e v) x).isSome = (w x).isSome := isSome_modify ..
@[simp]
theorem isSome_wrNext (w : World) (e x : Nat) (v : EntityHandle) :
    ((wrNext w e v) x).isSome = (w x).isSome := isSome_modify ..

@[simp]
theorem parent_wrParent (w : World) (e x : Nat) (v : EntityHandle) :
    (rd (wrParent w e v) x).parent
      = if x = e ∧ (w e).isSome = true then v else (rd w x).parent := by
  simp only [wrParent, rd_modify]; split <;> rfl
@[simp]
theorem firstChild_wrParent (w : World) (e x : Nat) (v : EntityHandle) :
    (rd (wrParent w e v) x).firstChild = (rd w x).firstChild := by
  simp only [wrParent, rd_modify]; split <;> simp_all
@[simp]
theorem prev_wrParent (w : World) (e x : Nat) (v : EntityHandle) :
    (rd (wrParent w e v) x).prevSibling = (rd w x).prevSibling := by
  simp only [wrParent, rd_modify]; split <;> simp_all
@[simp]
theorem next_wrParent (w : World) (e x : Nat) (v : EntityHandle) :
    (rd (wrParent w e v) x).nextSibling = (rd w x).nextSibling := by
  simp only [wrParent, rd_modify]; split <;> simp_all

@[simp]
theorem parent_wrFirstChild (w : World) (e x : Nat) (v : EntityHandle) :
    (rd (wrFirstChild w e v) x).parent = (rd w x).parent := by
  simp only [wrFirstChild, rd_modify]; split <;> simp_all
@[simp]
theorem firstChild_wrFirstChild (w : World) (e x : Nat) (v : EntityHandle) :
    (rd (wrFirstChild w e v) x).firstChild
      = if x = e ∧ (w e).isSome = true then v else (rd w x).firstChild := by
  simp only [wrFirstChild, rd_modify]; split <;> rfl
@[simp]
theorem prev_wrFirstChild (w : World) (e x : Nat) (v : EntityHandle) :
    (rd (wrFirstChild w e v) x).prevSibling = (rd w x).prevSibling := by
  simp only [wrFirstChild, rd_modify]; split <;> simp_all
@[simp]
theorem next_wrFirstChild (w : World) (e x : Nat) (v : EntityHandle) :
    (rd (wrFirstChild w e v) x).nextSibling = (rd w x).nextSibling := by
  simp only [wrFirstChild, rd_modify]; split <;> simp_all

@[simp]
theorem parent_wrPrev (w : World) (e x : Nat) (v : EntityHandle) :
    (rd (wrPrev w e v) x).parent = (rd w x).parent := by
  simp only [wrPrev, rd_modify]; split <;> simp_all
@[simp]
theorem firstChild_wrPrev (w : World) (e x : Nat) (v : EntityHandle) :
    (rd (wrPrev w e v) x).firstChild = (rd w x).firstChild := by
  simp only [wrPrev, rd_modify]; split <;> simp_all
@[simp]
theorem prev_wrPrev (w : World) (e x : Nat) (v : EntityHandle) :
    (rd (wrPrev w e v) x).prevSibling
      = if x = e ∧ (w e).isSome = true then v else (rd w x).prevSibling := by
  simp only [wrPrev, rd_modify]; split <;> rfl
@[simp]
theorem next_wrPrev (w : World) (e x : Nat) (v : EntityHandle) :
    (rd (wrPrev w e v) x).nextSibling = (rd w x).nextSibling := by
  simp only [wrPrev, rd_modify]; split <;> simp_all

@[simp]
theorem parent_wrNext (w : World) (e x : Nat) (v : EntityHandle) :
    (rd (wrNext w e v) x).parent = (rd w x).parent := by
  simp only [wrNext, rd_modify]; split <;> simp_all
@[simp]
theorem firstChild_wrNext (w : World) (e x : Nat) (v : EntityHandle) :
    (rd (wrNext w e v) x).firstChild = (rd w x).firstChild := by
  simp only [wrNext, rd_modify]; split <;> simp_all
@[simp]
theorem prev_wrNext (w : World) (e x : Nat) (v : EntityHandle) :
    (rd (wrNext w e v) x).prevSibling = (rd w x).prevSibling := by
  simp only [wrNext, rd_modify]; split <;> simp_all
@[simp]
theorem next_wrNext (w : World) (e x : Nat) (v : EntityHandle) :
    (rd (wrNext w e v) x).nextSibling
      = if x = e ∧ (w e).isSome = true then v else (rd w x).nextSibling := by
  simp only [wrNext, rd_modify]; split <;> rfl

theorem get_some (w : World) (e : Nat) (h : (w e).isSome = true) :
    get w (some e) = .ok e := by
  simp [get, h]

theorem removeParent_root (w : World) (e : Nat) (he : (w e).isSome = true)
    (hp : (rd w e).parent = none) :
    removeParent w (some e) = .ok (wrNext (wrPrev (wrParent w e none) e none) e none) := by
  simp [removeParent, get_some w e he, hp]

theorem removeParent_first (w : World) (e p n : Nat) (he : (w e).isSome = true)
    (hp : (rd w e).parent = some p) (hpc : (w p).isSome = true)
    (hf : (rd w p).firstChild = some e) (hprev : (rd w e).prevSibling = none)
    (hn : (rd w e).nextSibling = some n) (hnc : (w n).isSome = true) :
    removeParent w (some e) = .ok (wrNext (wrPrev (wrParent
      (wrPrev (wrFirstChild w p (some n)) n none) e none) e none) e none) := by
  simp [removeParent, get_some w e he, hp, get_some, hpc, hf, hprev, hn, assert, hnc]

theorem removeParent_inner (w : World) (e p q n : Nat) (he : (w e).isSome = true)
    (hp : (rd w e).parent = some p) (hpc : (w p).isSome = true)
    (hf : ∃ c, (rd w p).firstChild = some c ∧ c ≠ e) (hprev : (rd w e).prevSibling = some q)
    (hqc : (w q).isSome = true)
    (hn : (rd w e).nextSibling = some n) (hnc : (w n).isSome = true) :
    removeParent w (some e) = .ok (wrNext (wrPrev (wrParent
      (wrPrev (wrNext w q (some n)) n (some q)) e none) e none) e none) := by
  obtain ⟨c, hc, hce⟩ := hf
  simp [removeParent, get_some w e he, hp, get_some, hpc, hc, hce, hprev, hn, assert, hnc, hqc]

/-! ## Sibling walks -/

theorem chain_congr (w v : World) (l : List Nat) :
    ∀ prev cur, (∀ x ∈ l, SameLinks w v x) →
      SiblingChain w prev cur l → SiblingChain v prev cur l := by
  induction l with
  | nil => intro prev cur _ h; exact h
  | cons a rest ih =>
    intro prev cur hs h
    obtain ⟨h1, h2, h3, h4⟩ := h
    obtain ⟨s1, s2, s3⟩ := hs a (List.mem_cons_self a rest)
    refine ⟨h1, s1 h2, s2.trans h3, ?_⟩
    rw [s3]
    exact ih _ _ (fun x hx => hs x (List.mem_cons_of_mem a hx)) h4

theorem chain_append_congr (w v : World) (l r r2 : List Nat)
    (hr : ∀ prev cur, SiblingChain w prev cur r → SiblingChain v prev cur r2) :
    ∀ prev cur, (∀ x ∈ l, SameLinks w v x) →
      SiblingChain w prev cur (l ++ r) → SiblingChain v prev cur (l ++ r2) := by
  induction l with
  | nil => intro prev cur _ h; exact hr _ _ h
  | cons a rest ih =>
    intro prev cur hs h
    obtain ⟨h1, h2, h3, h4⟩ := h
    obtain ⟨s1, s2, s3⟩ := hs a (List.mem_cons_self a rest)
    refine ⟨h1, s1 h2, s2.trans h3, ?_⟩
    rw [s3]
    exact ih _ _ (fun x hx => hs x (List.mem_cons_of_mem a hx)) h4

theorem chain_suffix (w : World) (l : List Nat) (e : Nat) (r : List Nat) :
    ∀ prev cur, SiblingChain w prev cur (l ++ e :: r) →
      (w e).isSome = true ∧ SiblingChain w (some e) (rd w e).nextSibling r := by
  induction l with
  | nil => intro prev cur h; exact ⟨h.2.1, h.2.2.2⟩
  | cons a rest ih => intro prev cur h; exact ih _ _ h.2.2.2

theorem chain_pred (w : World) (l : List Nat) (q e : Nat) (r : List Nat)
    (prev cur : EntityHandle) (h : SiblingChain w prev cur (l ++ q :: e :: r)) :
    (w q).isSome = true ∧ (rd w q).nextSibling = some e ∧
      (rd w e).prevSibling = some q := by
  obtain ⟨hq, hc⟩ := chain_suffix w l q (e :: r) prev cur h
  exact ⟨hq, hc.1, hc.2.2.1⟩

theorem chain_nil_of_none (w : World) (prev : EntityHandle) (l : List Nat)
    (h : SiblingChain w prev none l) : l = [] := by
  cases l with
  | nil => rfl
  | cons a rest => exact absurd h.1 (by simp)

theorem chain_head (w : World) (prev cur : EntityHandle) (l : List Nat)
    (h : SiblingChain w prev cur l) : cur = l.head? := by
  cases l with
  | nil => exact h
  | cons a rest => exact h.1

theorem isSome_of_firstChild (w : World) (p c : Nat) (h : (rd w p).firstChild = some c) :
    (w p).isSome = true := by
  unfold rd at h
  cases hp : w p with
  | none => rw [hp] at h; exact absurd h (by simp [default])
  | some x => rfl

theorem chain_erase (w v : World) (e p n : Nat) (l1 l2 : List Nat)
    (hs : Spliced w v e p n)
    (hc : SiblingChain w none (rd w p).firstChild (l1 ++ e :: n :: l2))
    (hnd : (l1 ++ e :: n :: l2).Nodup) :
    SiblingChain v none (rd v p).firstChild (l1 ++ n :: l2) := by
  obtain ⟨hsome, -, hfc, hpv, hnx⟩ := hs
  have hnd2 := hnd
  rw [List.nodup_append] at hnd2
  obtain ⟨hnd1, hndr, hdisj⟩ := hnd2
  have hen : e ≠ n := by
    intro h; subst h; simp at hndr
  have he2 : e ∉ l2 := by
    intro h; simp [h] at hndr
  have hn2 : n ∉ l2 := by
    intro h; simp [h] at hndr
  have he1 : e ∉ l1 := fun h => hdisj h (by simp)
  have hn1 : n ∉ l1 := fun h => hdisj h (by simp)
  rcases List.eq_nil_or_concat l1 with h | ⟨l0, q, h⟩
  · subst h
    simp only [List.nil_append] at hc ⊢
    obtain ⟨c1, c2, c3, c4, c5, c6, c7⟩ := hc
    have hfp : (rd v p).firstChild = some n := by rw [hfc]; simp [c1]
    rw [hfp]
    refine ⟨rfl, by rw [hsome]; exact c5, ?_, ?_⟩
    · rw [hpv]; simp [hen.symm, c3]
    · have hnn : (rd v n).nextSibling = (rd w n).nextSibling := by
        rw [hnx]; simp [hen.symm, c3]
      rw [hnn]
      refine chain_congr w v l2 _ _ ?_ c7
      intro x hx
      have hxe : x ≠ e := fun h => he2 (h ▸ hx)
      have hxn : x ≠ n := fun h => hn2 (h ▸ hx)
      refine ⟨fun h => by rw [hsome]; exact h, ?_, ?_⟩
      · rw [hpv]; simp [hxe, hxn]
      · rw [hnx]; simp [hxe, c3]
  · rw [List.concat_eq_append] at h
    subst h
    have hqe : q ≠ e := fun h => he1 (by simp [h])
    have hqn : q ≠ n := fun h => hn1 (by simp [h])
    have hq0 : q ∉ l0 := by
      intro h
      have := List.nodup_append.1 hnd1
      exact this.2.2 h (by simp)
    have hqp := chain_pred w l0 q e (n :: l2) none _ (by simpa using hc)
    have hhead : (rd w p).firstChild ≠ some e := by
      rw [chain_head w _ _ _ hc]
      cases l0 with
      | nil => simp [hqe]
      | cons a t =>
        simp only [List.cons_append, List.head?_cons, ne_eq, Option.some.injEq]
        intro h; exact he1 (by simp [← h])
    have hfp : (rd v p).firstChild = (rd w p).firstChild := by rw [hfc]; simp [hhead]
    rw [hfp]
    have hc2 : SiblingChain w none (rd w p).firstChild (l0 ++ q :: e :: n :: l2) := by
      simpa using hc
    have goal2 : SiblingChain v none (rd w p).firstChild (l0 ++ q :: n :: l2) := by
      refine chain_append_congr w v l0 (q :: e :: n :: l2) (q :: n :: l2) ?_ _ _ ?_ hc2
      · intro prev cur hch
        obtain ⟨c1, c2, c3, c4, c5, c6, c7, c8, c9, c10⟩ := hch
        refine ⟨c1, by rw [hsome]; exact c2, ?_, ?_⟩
        · rw [hpv]; simp [hqe, hqn, c3]
        · have : (rd v q).nextSibling = some n := by rw [hnx]; simp [hqe, c6]
          rw [this]
          refine ⟨rfl, by rw [hsome]; exact c8, ?_, ?_⟩
          · rw [hpv]; simp [hen.symm, c6]
          · have hnn : (rd v n).nextSibling = (rd w n).nextSibling := by
              rw [hnx]; simp [hen.symm, c6, hqn]
            rw [hnn]
            refine chain_congr w v l2 _ _ ?_ c10
            intro x hx
            have hxe : x ≠ e := fun h => he2 (h ▸ hx)
            have hxn : x ≠ n := fun h => hn2 (h ▸ hx)
            have hxq : q ≠ x := by
              intro h; subst h
              exact hdisj (List.mem_append_right l0 (List.mem_singleton_self q))
                (by simp [hx])
            refine ⟨fun h => by rw [hsome]; exact h, ?_, ?_⟩
            · rw [hpv]; simp [hxe, hxn]
            · rw [hnx]; simp [hxe, c6, hxq]
      · intro x hx
        have hxe : x ≠ e := fun h => he1 (by simp [← h, hx])
        have hxn : x ≠ n := fun h => hn1 (by simp [← h, hx])
        have hxq : q ≠ x := fun h => hq0 (h ▸ hx)
        refine ⟨fun h => by rw [hsome]; exact h, ?_, ?_⟩
        · rw [hpv]; simp [hxe, hxn]
        · rw [hnx]; simp [hxe, hqp.2.2, hxq]
    simpa using goal2

/-! ## Effect of `removeParent` -/

/-- What the invariant says around a child `e` of `p` with next sibling `n`. -/
theorem child_split (w : World) (p e : Nat) (l : List Nat) (hL : ChildList w p l)
    (hp : (rd w e).parent = some p) :
    ∃ l1 l2, l = l1 ++ e :: l2 ∧ (w e).isSome = true ∧ (w p).isSome = true ∧
      (rd w e).nextSibling = l2.head? ∧
      (l1 = [] → (rd w p).firstChild = some e ∧ (rd w e).prevSibling = none) ∧
      (∀ l0 q, l1 = l0 ++ [q] → (∃ c, (rd w p).firstChild = some c ∧ c ≠ e) ∧
        (w q).isSome = true ∧ (rd w q).nextSibling = some e ∧
        (rd w e).prevSibling = some q) := by
  obtain ⟨hc, hnd, hmem⟩ := hL
  obtain ⟨l1, l2, rfl⟩ := List.append_of_mem ((hmem e).2 hp)
  obtain ⟨hes, hsuf⟩ := chain_suffix w l1 e l2 _ _ hc
  have hhead := chain_head w _ _ _ hc
  have hps : (w p).isSome = true := by
    cases l1 with
    | nil => exact isSome_of_firstChild w p e (by simpa using hhead)
    | cons a t => exact isSome_of_firstChild w p a (by simpa using hhead)
  refine ⟨l1, l2, rfl, hes, hps, chain_head w _ _ _ hsuf, ?_, ?_⟩
  · intro h; subst h
    exact ⟨hc.1, hc.2.2.1⟩
  · intro l0 q h; subst h
    have he1 : e ∉ l0 ++ [q] := by
      intro h
      exact (List.nodup_append.1 hnd).2.2 h (by simp)
    have hpred := chain_pred w l0 q e l2 none _ (by simpa using hc)
    refine ⟨?_, hpred⟩
    cases l0 with
    | nil =>
      refine ⟨q, by simpa using hhead, ?_⟩
      intro h; exact he1 (by simp [h])
    | cons a t =>
      refine ⟨a, by simpa using hhead, ?_⟩
      intro h; exact he1 (by simp [h])

theorem removeParent_spliced (w : World) (p e n : Nat) (l : List Nat)
    (hL : ChildList w p l) (hp : (rd w e).parent = some p)
    (hn : (rd w e).nextSibling = some n) :
    ∃ w2, removeParent w (some e) = .ok w2 ∧ Spliced w w2 e p n := by
  obtain ⟨l1, l2, hl, hes, hps, hnx, hfirst, hinner⟩ := child_split w p e l hL hp
  subst hl
  obtain ⟨hc, hnd, hmem⟩ := hL
  have hns : (w n).isSome = true := by
    cases l2 with
    | nil => rw [hn] at hnx; simp at hnx
    | cons b t =>
      rw [hn] at hnx
      simp only [List.head?_cons, Option.some.injEq] at hnx
      subst hnx
      exact (chain_suffix w (l1 ++ [e]) n t _ _ (by simpa using hc)).1
  rcases List.eq_nil_or_concat l1 with h | ⟨l0, q, h⟩
  · obtain ⟨hf, hpv⟩ := hfirst h
    refine ⟨_, removeParent_first w e p n hes hp hps hf hpv hn hns, ?_⟩
    refine ⟨fun x => by simp, fun x => ?_, fun x => ?_, fun x => ?_, fun x => ?_⟩
    · by_cases hx : x = e <;> simp [hx, hes]
    · by_cases hx : x = p <;> simp [hx, hps, hf]
    · by_cases hx : x = e <;> by_cases hx2 : x = n <;> simp_all
    · by_cases hx : x = e <;> simp_all
  · rw [List.concat_eq_append] at h
    obtain ⟨hf, hqs, hqn, hpv⟩ := hinner l0 q h
    refine ⟨_, removeParent_inner w e p q n hes hp hps hf hpv hqs hn hns, ?_⟩
    obtain ⟨c, hc1, hc2⟩ := hf
    refine ⟨fun x => by simp, fun x => ?_, fun x => ?_, fun x => ?_, fun x => ?_⟩
    · by_cases hx : x = e <;> simp [hx, hes]
    · simp [hc1, hc2]
    · by_cases hx : x = e <;> by_cases hx2 : x = n <;> simp_all
    · by_cases hx : x = e
      · subst hx; simp [hes]
      · by_cases hx2 : x = q
        · subst hx2; simp [hx, hqs, hpv]
        · have hx3 : q ≠ x := fun h => hx2 h.symm
          simp [hx, hx2, hpv, hx3]

@[simp]
theorem get_none (w : World) : get w none = .error .nullHandle := rfl

theorem removeParent_last_fails (w : World) (p e : Nat) (l : List Nat)
    (hL : ChildList w p l) (hp : (rd w e).parent = some p)
    (hn : (rd w e).nextSibling = none) :
    removeParent w (some e) = .error .nullHandle := by
  obtain ⟨l1, l2, hl, hes, hps, -, hfirst, hinner⟩ := child_split w p e l hL hp
  rcases List.eq_nil_or_concat l1 with h | ⟨l0, q, h⟩
  · obtain ⟨hf, hpv⟩ := hfirst h
    simp [removeParent, get_some w e hes, hp, get_some w p hps, hf, hpv, hn, assert]
  · rw [List.concat_eq_append] at h
    obtain ⟨⟨c, hc1, hc2⟩, hqs, hqn, hpv⟩ := hinner l0 q h
    simp [removeParent, get_some w e hes, hp, get_some w p hps, hc1, hc2, hpv, hn, assert,
      get_some w q hqs]

theorem spliced_childList (w v : World) (p e n : Nat) (l : List Nat)
    (hs : Spliced w v e p n) (hL : ChildList w p l) (hp : (rd w e).parent = some p)
    (hn : (rd w e).nextSibling = some n) : ChildList v p (l.erase e) := by
  obtain ⟨l1, l2, hl, hes, hps, hnx, -, -⟩ := child_split w p e l hL hp
  subst hl
  obtain ⟨hc, hnd, hmem⟩ := hL
  have he1 : e ∉ l1 := fun h => (List.nodup_append.1 hnd).2.2 h (by simp)
  have her : (l1 ++ e :: l2).erase e = l1 ++ l2 := by
    rw [List.erase_append_right _ he1, List.erase_cons_head]
  rw [her]
  cases l2 with
  | nil => rw [hn] at hnx; simp at hnx
  | cons b t =>
    rw [hn] at hnx
    simp only [List.head?_cons, Option.some.injEq] at hnx
    subst hnx
    refine ⟨chain_erase w v e p n l1 t hs hc hnd, ?_, ?_⟩
    · have := hnd.sublist (show (l1 ++ n :: t).Sublist (l1 ++ e :: n :: t) from
        List.Sublist.append_left (List.sublist_cons_self e (n :: t)) l1)
      exact this
    · intro x
      rw [hs.2.1 x]
      by_cases hx : x = e
      · subst hx
        simp only [if_true, List.mem_append, List.mem_cons]
        constructor
        · intro h
          exfalso
          have h3 := (List.nodup_cons.1 (List.nodup_append.1 hnd).2.1).1
          rcases h with h | h | h
          · exact he1 h
          · exact h3 (by simp [← h])
          · exact h3 (by simp [h])
        · intro h; simp at h
      · simp only [hx, if_false]
        rw [← hmem x]
        simp [hx]

theorem spliced_childList_other (w v : World) (p e n p2 : Nat) (l l2 : List Nat)
    (hs : Spliced w v e p n) (hL : ChildList w p l) (hp : (rd w e).parent = some p)
    (hn : (rd w e).nextSibling = some n) (hne : p2 ≠ p) (hL2 : ChildList w p2 l2) :
    ChildList v p2 l2 := by
  obtain ⟨l1, lr, hl, hes, hps, hnx, hfirst, hinner⟩ := child_split w p e l hL hp
  have hnp : (rd w n).parent = some p := by
    refine (hL.2.2 n).1 ?_
    subst hl
    cases lr with
    | nil => rw [hn] at hnx; simp at hnx
    | cons b t =>
      rw [hn] at hnx
      simp only [List.head?_cons, Option.some.injEq] at hnx
      subst hnx; simp
  have hqp : ∀ q, (rd w e).prevSibling = some q → (rd w q).parent = some p := by
    intro q hq
    refine (hL.2.2 q).1 ?_
    rcases List.eq_nil_or_concat l1 with h | ⟨l0, q2, h⟩
    · rw [(hfirst h).2] at hq; simp at hq
    · rw [List.concat_eq_append] at h
      have := (hinner l0 q2 h).2.2.2
      rw [this] at hq
      simp only [Option.some.injEq] at hq
      subst hq; subst hl; subst h; simp
  obtain ⟨hc2, hnd2, hmem2⟩ := hL2
  obtain ⟨hsome, hpar, hfc, hpv, hnxt⟩ := hs
  refine ⟨?_, hnd2, ?_⟩
  · have : (rd v p2).firstChild = (rd w p2).firstChild := by rw [hfc]; simp [hne]
    rw [this]
    refine chain_congr w v l2 _ _ ?_ hc2
    intro x hx
    have hxp : (rd w x).parent = some p2 := (hmem2 x).1 hx
    have hxe : x ≠ e := by
      intro h; subst h; rw [hp] at hxp; exact hne (Option.some.inj hxp).symm
    have hxn : x ≠ n := by
      intro h; subst h; rw [hnp] at hxp; exact hne (Option.some.inj hxp).symm
    have hxq : (rd w e).prevSibling ≠ some x := by
      intro h
      have := hqp x h
      rw [this] at hxp; exact hne (Option.some.inj hxp).symm
    refine ⟨fun h => by rw [hsome]; exact h, ?_, ?_⟩
    · rw [hpv]; simp [hxe, hxn]
    · rw [hnxt]; simp [hxe, hxq]
  · intro x
    rw [hmem2 x, hpar x]
    by_cases hx : x = e
    · subst hx
      simp only [if_true]
      rw [hp]
      constructor
      · intro h; exact absurd (Option.some.inj h).symm hne
      · intro h; simp at h
    · simp [hx]

theorem bind_eq_ok {α β : Type} (x : Except Failure α) (f : α → Except Failure β) (b : β) :
    (x >>= f) = .ok b ↔ ∃ a, x = .ok a ∧ f a = .ok b := by
  cases x with
  | error e => simp
  | ok a => simp

theorem get_missing (w : World) (e : Nat) (h : (w e).isSome = false) :
    get w (some e) = .error .missingComponent := by
  simp [get, h]

theorem cleared_childList (w : World) (e p : Nat) (l : List Nat)
    (hp : (rd w e).parent = none) (hL : ChildList w p l) :
    ChildList (wrNext (wrPrev (wrParent w e none) e none) e none) p l := by
  obtain ⟨hc, hnd, hmem⟩ := hL
  refine ⟨?_, hnd, ?_⟩
  · simp only [firstChild_wrNext, firstChild_wrPrev, firstChild_wrParent]
    refine chain_congr w _ l _ _ ?_ hc
    intro x hx
    have hxe : x ≠ e := by
      intro h; subst h
      have := (hmem x).1 hx
      rw [hp] at this; simp at this
    refine ⟨fun h => by simpa using h, ?_, ?_⟩ <;> simp [hxe]
  · intro x
    rw [hmem x]
    by_cases hx : x = e
    · subst hx; simp [hp]
    · simp [hx]

theorem removeParent_inv (w v : World) (entity : EntityHandle) (hinv : SiblingListInv w)
    (h : removeParent w entity = .ok v) : SiblingListInv v := by
  cases entity with
  | none => simp [removeParent] at h
  | some e =>
    cases hes : (w e).isSome with
    | false => simp [removeParent, get_missing w e hes] at h
    | true =>
      cases hp : (rd w e).parent with
      | none =>
        rw [removeParent_root w e hes hp] at h
        cases h
        intro p
        obtain ⟨l, hl⟩ := hinv p
        exact ⟨l, cleared_childList w e p l hp hl⟩
      | some p =>
        obtain ⟨l, hl⟩ := hinv p
        cases hn : (rd w e).nextSibling with
        | none => rw [removeParent_last_fails w p e l hl hp hn] at h; cases h
        | some n =>
          obtain ⟨w2, hw2, hs⟩ := removeParent_spliced w p e n l hl hp hn
          rw [hw2] at h
          cases h
          intro p2
          by_cases hpp : p2 = p
          · subst hpp
            exact ⟨_, spliced_childList w v p2 e n l hs hl hp hn⟩
          · obtain ⟨l2, hl2⟩ := hinv p2
            exact ⟨l2, spliced_childList_other w v p e n p2 l l2 hs hl hp hn hpp hl2⟩

/-- After a completed `removeParent` the entity holds a component whose parent,
previous and next sibling are null. -/
theorem removeParent_cleared (w v : World) (e : Nat)
    (h : removeParent w (some e) = .ok v) :
    (v e).isSome = true ∧ (rd v e).parent = none ∧ (rd v e).prevSibling = none ∧
      (rd v e).nextSibling = none := by
  cases hes : (w e).isSome with
  | false => simp [removeParent, get_missing w e hes] at h
  | true =>
    simp only [removeParent, get_some w e hes, ok_bind] at h
    simp only [pure_eq_ok, ok_bind] at h
    split at h
    · obtain ⟨p, -, h3⟩ := (bind_eq_ok _ _ _).1 h
      obtain ⟨-, -, h4⟩ := (bind_eq_ok _ _ _).1 h3
      split at h4
      · obtain ⟨-, -, h5⟩ := (bind_eq_ok _ _ _).1 h4
        obtain ⟨n, -, h6⟩ := (bind_eq_ok _ _ _).1 h5
        cases h6
        simp [hes]
      · obtain ⟨-, -, h5⟩ := (bind_eq_ok _ _ _).1 h4
        obtain ⟨q, -, h6⟩ := (bind_eq_ok _ _ _).1 h5
        obtain ⟨n, -, h7⟩ := (bind_eq_ok _ _ _).1 h6
        cases h7
        simp [hes]
    · cases h
      simp [hes]

/-! ## Effect of `setParent` -/

theorem getOrAdd_some (w : World) (e : Nat) : getOrAdd w (some e) = .ok (ensure w e, e) := by
  simp only [getOrAdd, ensure]
  split <;> rfl

@[simp]
theorem rd_ensure (w : World) (e x : Nat) : rd (ensure w e) x = rd w x := by
  unfold ensure
  split
  · rfl
  · rename_i h
    unfold rd
    by_cases hx : x = e
    · subst hx
      cases hw : w x with
      | none => simp
      | some c => simp [hw] at h
    · simp [hx]

@[simp]
theorem isSome_ensure (w : World) (e x : Nat) :
    ((ensure w e) x).isSome = ((w x).isSome || decide (x = e)) := by
  unfold ensure
  split
  · rename_i h
    by_cases hx : x = e
    · subst hx; simp [h]
    · simp [hx]
  · by_cases hx : x = e
    · subst hx; simp
    · simp [hx]

theorem chain_mem_isSome (w : World) (l : List Nat) :
    ∀ prev cur, SiblingChain w prev cur l → ∀ x ∈ l, (w x).isSome = true := by
  induction l with
  | nil => intro _ _ _ x hx; simp at hx
  | cons a rest ih =>
    intro prev cur h x hx
    rcases List.mem_cons.1 hx with hx | hx
    · subst hx; exact h.2.1
    · exact ih _ _ h.2.2.2 x hx

theorem lastSibling_chain (w : World) (l : List Nat) :
    ∀ prev cur fuel, l ≠ [] → SiblingChain w prev cur l → l.length ≤ fuel →
      lastSibling fuel w cur = .ok (l.getLast?, l.length - 1) := by
  induction l with
  | nil => intro _ _ _ h; exact absurd rfl h
  | cons a rest ih =>
    intro prev cur fuel _ hc hf
    obtain ⟨h1, h2, -, h4⟩ := hc
    cases fuel with
    | zero => simp at hf
    | succ f =>
      subst h1
      cases rest with
      | nil =>
        have : (rd w a).nextSibling = none := h4
        simp [lastSibling, get_some w a h2, this]
      | cons b t =>
        have hb : (rd w a).nextSibling = some b := h4.1
        have := ih (some a) (rd w a).nextSibling f (by simp) h4 (by simpa using hf)
        simp [lastSibling, get_some w a h2, hb] at this ⊢
        simp [this]

theorem lastSibling_mono (w : World) (fuel : Nat) :
    ∀ cur r k, lastSibling fuel w cur = .ok r → lastSibling (fuel + k) w cur = .ok r := by
  induction fuel with
  | zero => intro cur r k h; simp [lastSibling] at h
  | succ f ih =>
    intro cur r k h
    rw [show f + 1 + k = (f + k) + 1 by omega]
    simp only [lastSibling] at h ⊢
    obtain ⟨c, hc, h2⟩ := (bind_eq_ok _ _ _).1 h
    rw [hc]
    simp only [ok_bind] at h2 ⊢
    split at h2
    · rename_i hn
      obtain ⟨r2, hr2, h3⟩ := (bind_eq_ok _ _ _).1 h2
      simp [hn, ih _ r2 k hr2]
      simpa using h3
    · rename_i hn
      simp [hn]
      simpa using h2

theorem cleared_eq_self (w : World) (e : Nat) (h1 : (rd w e).parent = none)
    (h2 : (rd w e).prevSibling = none) (h3 : (rd w e).nextSibling = none) :
    wrNext (wrPrev (wrParent w e none) e none) e none = w := by
  funext x
  unfold wrNext wrPrev wrParent modify
  unfold rd at h1 h2 h3
  by_cases hx : x = e
  · subst hx
    cases hw : w x with
    | none => simp [hw]
    | some c =>
      rw [hw] at h1 h2 h3
      simp only [Option.getD_some] at h1 h2 h3
      cases c
      simp_all
  · simp [hx]

theorem ensure_of_isSome (w : World) (e : Nat) (h : (w e).isSome = true) :
    ensure w e = w := by
  simp [ensure, h]

theorem setParent_root (fuel : Nat) (w : World) (e p : Nat) (l : List Nat)
    (hes : (w e).isSome = true) (hp : (rd w e).parent = none)
    (hL : ChildList w p l) (hf : l.length ≤ fuel) :
    ∃ v, setParentVal fuel w (some e) (some p) = .ok v ∧ Appended w v e p l := by
  obtain ⟨hc, hnd, hmem⟩ := hL
  have hel : e ∉ l := by
    intro h; have := (hmem e).1 h; rw [hp] at this; simp at this
  rcases List.eq_nil_or_concat l with h | ⟨l0, q, h⟩
  · subst h
    have hfc : (rd w p).firstChild = none := hc
    refine ⟨_, by
      simp [setParentVal, removeParent_root w e hes hp, getOrAdd_some, hfc]; rfl, ?_⟩
    refine ⟨fun x => ?_, fun x => ?_, fun x => ?_, fun x => ?_, fun x => ?_⟩
    · by_cases hx : x = e <;> simp [hx, hes]
    · by_cases hx : x = e <;> simp [hx, hes]
    · by_cases hx : x = p <;> simp [hx]
    · by_cases hx : x = e <;> simp [hx, hes]
    · by_cases hx : x = e <;> simp [hx, hes]
  · rw [List.concat_eq_append] at h
    subst h
    have hqs : (w q).isSome = true := chain_mem_isSome w _ _ _ hc q (by simp)
    have hqe : q ≠ e := fun h => hel (by simp [h])
    obtain ⟨c, hcc⟩ : ∃ c, (rd w p).firstChild = some c := by
      have := chain_head w _ _ _ hc
      cases l0 with
      | nil => exact ⟨q, by simpa using this⟩
      | cons a t => exact ⟨a, by simpa using this⟩
    have hps : (w p).isSome = true := isSome_of_firstChild w p c hcc
    obtain ⟨w4, hw4⟩ : ∃ w4, w4 = ensure (wrParent
        (wrNext (wrPrev (wrParent w e none) e none) e none) e (some p)) p := ⟨_, rfl⟩
    have hc4 : SiblingChain w4 none (some c) (l0 ++ [q]) := by
      rw [← hcc]
      refine chain_congr w w4 _ _ _ ?_ hc
      intro x hx
      have hxe : x ≠ e := fun h => hel (h ▸ hx)
      refine ⟨fun h => by simp [hw4, h], ?_, ?_⟩ <;> simp [hw4, hxe]
    have hlast := lastSibling_chain w4 (l0 ++ [q]) none (some c) fuel (by simp) hc4 hf
    have hq4 : (w4 q).isSome = true := by simp [hw4, hqs]
    refine ⟨wrNext (wrPrev (wrNext w4 q (some e)) e (some q)) e none, ?_, ?_⟩
    · have he1 : ensure (wrNext (wrPrev (wrParent w e none) e none) e none) e
          = wrNext (wrPrev (wrParent w e none) e none) e none :=
        ensure_of_isSome _ _ (by simpa using hes)
      simp only [setParentVal, removeParent_root w e hes hp, getOrAdd_some, ok_bind, he1, ← hw4]
      have hfc4 : (rd w4 p).firstChild = some c := by simp [hw4, hcc]
      simp [hfc4, hlast, get_some w4 q hq4]
    subst hw4
    refine ⟨fun x => ?_, fun x => ?_, fun x => ?_, fun x => ?_, fun x => ?_⟩
    · by_cases hx : x = e <;> simp [hx, hes]
    · by_cases hx : x = e <;> simp [hx, hes]
    · simp
    · by_cases hx : x = e <;> simp [hx, hes]
    · by_cases hx : x = e
      · simp [hx, hes]
      · by_cases hx2 : x = q
        · subst hx2; simp [hx, hqs]
        · have hx3 : q ≠ x := fun h => hx2 h.symm
          simp [hx, hx2, hx3]

theorem appended_childList (w v : World) (e p : Nat) (l : List Nat)
    (ha : Appended w v e p l) (hes : (w e).isSome = true)
    (hp : (rd w e).parent = none) (hL : ChildList w p l) :
    ChildList v p (l ++ [e]) := by
  obtain ⟨hc, hnd, hmem⟩ := hL
  obtain ⟨hsome, hpar, hfc, hpv, hnx⟩ := ha
  have hel : e ∉ l := by
    intro h; have := (hmem e).1 h; rw [hp] at this; simp at this
  have hev : (v e).isSome = true := by rw [hsome]; simp [hes]
  refine ⟨?_, ?_, ?_⟩
  · rcases List.eq_nil_or_concat l with h | ⟨l0, q, h⟩
    · subst h
      have h1 : (rd v p).firstChild = some e := by rw [hfc]; simp
      rw [h1]
      refine ⟨rfl, hev, ?_, ?_⟩
      · rw [hpv]; simp
      · have : (rd v e).nextSibling = none := by rw [hnx]; simp
        rw [this]; rfl
    · rw [List.concat_eq_append] at h
      subst h
      have h1 : (rd v p).firstChild = (rd w p).firstChild := by rw [hfc]; simp
      rw [h1, List.append_assoc]
      have hq0 : q ∉ l0 := fun h => (List.nodup_append.1 hnd).2.2 h (by simp)
      have hqe : q ≠ e := fun h => hel (by simp [h])
      refine chain_append_congr w v l0 [q] ([q] ++ [e]) ?_ _ _ ?_ hc
      · intro prev cur hch
        obtain ⟨c1, c2, c3, c4⟩ := hch
        refine ⟨c1, by rw [hsome]; simp [c2], ?_, ?_⟩
        · rw [hpv]; simp [hqe, c3]
        · have : (rd v q).nextSibling = some e := by rw [hnx]; simp [hqe]
          rw [this]
          refine ⟨rfl, hev, ?_, ?_⟩
          · rw [hpv]; simp
          · have : (rd v e).nextSibling = none := by rw [hnx]; simp
            rw [this]; rfl
      · intro x hx
        have hxe : x ≠ e := fun h => hel (by simp [← h, hx])
        have hxq : q ≠ x := fun h => hq0 (h ▸ hx)
        refine ⟨fun h => by rw [hsome]; simp [h], ?_, ?_⟩
        · rw [hpv]; simp [hxe]
        · rw [hnx]; simp [hxe, hxq]
  · rw [List.nodup_append]
    refine ⟨hnd, List.nodup_singleton e, ?_⟩
    intro x hx hx2
    rw [List.mem_singleton] at hx2
    exact hel (hx2 ▸ hx)
  · intro x
    rw [hpar x, List.mem_append, List.mem_singleton]
    by_cases hx : x = e
    · simp [hx]
    · simp [hx, hmem x]

theorem appended_childList_other (w v : World) (e p p2 : Nat) (l l2 : List Nat)
    (ha : Appended w v e p l) (hp : (rd w e).parent = none) (hL : ChildList w p l)
    (hne : p2 ≠ p) (hL2 : ChildList w p2 l2) : ChildList v p2 l2 := by
  obtain ⟨hc2, hnd2, hmem2⟩ := hL2
  obtain ⟨hsome, hpar, hfc, hpv, hnx⟩ := ha
  refine ⟨?_, hnd2, ?_⟩
  · have h1 : (rd v p2).firstChild = (rd w p2).firstChild := by rw [hfc]; simp [hne]
    rw [h1]
    refine chain_congr w v l2 _ _ ?_ hc2
    intro x hx
    have hxp : (rd w x).parent = some p2 := (hmem2 x).1 hx
    have hxe : x ≠ e := by
      intro h; subst h; rw [hp] at hxp; simp at hxp
    have hxl : l.getLast? ≠ some x := by
      intro h
      have := (hL.2.2 x).1 (List.mem_of_getLast?_eq_some h)
      rw [this] at hxp; exact hne (Option.some.inj hxp).symm
    refine ⟨fun h => by rw [hsome]; simp [h], ?_, ?_⟩
    · rw [hpv]; simp [hxe]
    · rw [hnx]; simp [hxe, hxl]
  · intro x
    rw [hmem2 x, hpar x]
    by_cases hx : x = e
    · subst hx
      simp only [if_true, hp]
      constructor
      · intro h; simp at h
      · intro h; exact absurd (Option.some.inj h).symm hne
    · simp [hx]

theorem getOrAdd_none (w : World) : getOrAdd w none = .error .nullHandle := rfl

theorem setParent_unfold (fuel : Nat) (w w1 : World) (e : Nat) (parent : EntityHandle)
    (h : removeParent w (some e) = .ok w1) :
    setParentVal fuel w (some e) parent = setParentVal fuel w1 (some e) parent := by
  obtain ⟨h1, h2, h3, h4⟩ := removeParent_cleared w w1 e h
  have h5 : removeParent w1 (some e) = .ok w1 := by
    rw [removeParent_root w1 e h1 h2, cleared_eq_self w1 e h2 h3 h4]
  simp only [setParentVal, h, h5]

theorem setParent_mono (fuel k : Nat) (w v : World) (entity parent : EntityHandle)
    (h : setParentVal fuel w entity parent = .ok v) :
    setParentVal (fuel + k) w entity parent = .ok v := by
  simp only [setParentVal] at h ⊢
  obtain ⟨w1, h1, h2⟩ := (bind_eq_ok _ _ _).1 h
  rw [h1]
  simp only [ok_bind] at h2 ⊢
  obtain ⟨a, ha, h3⟩ := (bind_eq_ok _ _ _).1 h2
  rw [ha]
  simp only [ok_bind] at h3 ⊢
  obtain ⟨b, hb, h4⟩ := (bind_eq_ok _ _ _).1 h3
  rw [hb]
  simp only [ok_bind] at h4 ⊢
  split at h4
  · rename_i hn
    simp only [hn, if_true]
    exact h4
  · rename_i hn
    simp only [hn]
    obtain ⟨r, hr, h5⟩ := (bind_eq_ok _ _ _).1 h4
    rw [lastSibling_mono _ _ _ r k hr]
    exact h5

theorem setParent_inv (fuel : Nat) (w v : World) (entity parent : EntityHandle)
    (hinv : SiblingListInv w) (h : setParentVal fuel w entity parent = .ok v) :
    SiblingListInv v := by
  have h0 := h
  simp only [setParentVal] at h0
  obtain ⟨w1, h1, h2⟩ := (bind_eq_ok _ _ _).1 h0
  have hinv1 := removeParent_inv w w1 entity hinv h1
  cases entity with
  | none => simp [removeParent] at h1
  | some e =>
    cases parent with
    | none =>
      simp only [getOrAdd_some, ok_bind, getOrAdd_none, error_bind] at h2
      cases h2
    | some p =>
      obtain ⟨c1, c2, c3, c4⟩ := removeParent_cleared w w1 e h1
      rw [setParent_unfold fuel w w1 e (some p) h1] at h
      obtain ⟨l, hl⟩ := hinv1 p
      obtain ⟨v2, hv2, happ⟩ := setParent_root (fuel + l.length) w1 e p l c1 c2 hl (by omega)
      have := setParent_mono fuel l.length w1 v (some e) (some p) h
      rw [this] at hv2
      cases hv2
      intro p2
      by_cases hpp : p2 = p
      · subst hpp
        exact ⟨_, appended_childList w1 v e p2 l happ c1 c2 hl⟩
      · obtain ⟨l2, hl2⟩ := hinv1 p2
        exact ⟨l2, appended_childList_other w1 v e p p2 l l2 happ c2 hl hpp hl2⟩

/-! ## The claims on the hierarchy -/

theorem chain_last (w : World) (l : List Nat) :
    ∀ prev cur, SiblingChain w prev cur l →
      ∀ a, l.getLast? = some a → (rd w a).nextSibling = none := by
  induction l with
  | nil => intro _ _ _ a ha; simp at ha
  | cons b rest ih =>
    intro prev cur h a ha
    cases rest with
    | nil =>
      simp only [List.getLast?_singleton, Option.some.injEq] at ha
      subst ha
      exact h.2.2.2
    | cons c t =>
      rw [List.getLast?_cons_cons] at ha
      exact ih _ _ h.2.2.2 a ha

theorem chain_next_none (w : World) (l : List Nat) :
    ∀ prev cur, SiblingChain w prev cur l →
      ∀ x ∈ l, (rd w x).nextSibling = none → l.getLast? = some x := by
  induction l with
  | nil => intro _ _ _ x hx; simp at hx
  | cons b rest ih =>
    intro prev cur h x hx hn
    cases rest with
    | nil =>
      simp only [List.mem_singleton] at hx
      simp [hx]
    | cons c t =>
      rw [List.getLast?_cons_cons]
      rcases List.mem_cons.1 hx with hx | hx
      · subst hx
        have := h.2.2.2.1
        rw [hn] at this; simp at this
      · exact ih _ _ h.2.2.2 x hx hn

/-- The links a walk goes through, spelled out: `p.firstChild` is the first
node of the list, the first node has a null `prevSibling`, the last a null
`nextSibling`, and consecutive nodes point at each other. -/
theorem childList_links (w : World) (p : Nat) (l : List Nat) (hL : ChildList w p l) :
    (rd w p).firstChild = l.head? ∧
      (∀ a, l.head? = some a → (rd w a).prevSibling = none) ∧
      (∀ a, l.getLast? = some a → (rd w a).nextSibling = none) ∧
      (∀ l1 a b l2, l = l1 ++ a :: b :: l2 →
        (rd w a).nextSibling = some b ∧ (rd w b).prevSibling = some a) := by
  obtain ⟨hc, -, -⟩ := hL
  refine ⟨chain_head w _ _ _ hc, ?_, chain_last w l _ _ hc, ?_⟩
  · intro a ha
    cases l with
    | nil => simp at ha
    | cons b t =>
      simp only [List.head?_cons, Option.some.injEq] at ha
      subst ha
      exact hc.2.2.1
  · intro l1 a b l2 hl
    subst hl
    exact (chain_pred w l1 a b l2 _ _ hc).2

theorem freshWorld_inv (w : World) (h : ∀ e c, w e = some c → c = default) :
    SiblingListInv w := by
  have hrd : ∀ e, rd w e = default := by
    intro e
    unfold rd
    cases hw : w e with
    | none => rfl
    | some c => simp [h e c hw]
  intro p
  refine ⟨[], ?_, List.nodup_nil, ?_⟩
  · rw [hrd p]; rfl
  · intro e; rw [hrd e]; simp [default]

theorem runCalls_inv (fuel : Nat) (calls : List Call) :
    ∀ w v, SiblingListInv w → runCalls fuel w calls = .ok v → SiblingListInv v := by
  induction calls with
  | nil => intro w v hinv h; cases h; exact hinv
  | cons c cs ih =>
    intro w v hinv h
    simp only [runCalls] at h
    obtain ⟨w1, h1, h2⟩ := (bind_eq_ok _ _ _).1 h
    refine ih w1 v ?_ h2
    cases c with
    | setParent entity parent => exact setParent_inv fuel w w1 entity parent hinv h1
    | removeParent entity => exact removeParent_inv w w1 entity hinv h1

theorem removeParent_rootsClean (w v : World) (entity : EntityHandle)
    (hinv : SiblingListInv w) (hr : RootsClean w) (h : removeParent w entity = .ok v) :
    RootsClean v := by
  cases entity with
  | none => simp [removeParent] at h
  | some e =>
    cases hes : (w e).isSome with
    | false => simp [removeParent, get_missing w e hes] at h
    | true =>
      cases hp : (rd w e).parent with
      | none =>
        rw [removeParent_root w e hes hp] at h
        cases h
        intro x hx
        by_cases hxe : x = e
        · subst hxe; simp [hes]
        · simp only [parent_wrNext, parent_wrPrev, parent_wrParent, hxe, false_and,
            if_false] at hx
          simpa [hxe] using hr x hx
      | some p =>
        obtain ⟨l, hl⟩ := hinv p
        cases hn : (rd w e).nextSibling with
        | none => rw [removeParent_last_fails w p e l hl hp hn] at h; cases h
        | some n =>
          obtain ⟨w2, hw2, hs⟩ := removeParent_spliced w p e n l hl hp hn
          rw [hw2] at h
          cases h
          obtain ⟨l1, lr, hsplit, -, -, hnx, hfirst, hinner⟩ := child_split w p e l hl hp
          have hnp : (rd w n).parent = some p := by
            refine (hl.2.2 n).1 ?_
            rw [hn] at hnx
            rw [hsplit]
            exact List.mem_append_right _ (List.mem_cons_of_mem _
              (List.mem_of_mem_head? hnx.symm))
          have hqp : ∀ q, (rd w e).prevSibling = some q → (rd w q).parent = some p := by
            intro q hq
            refine (hl.2.2 q).1 ?_
            rcases List.eq_nil_or_concat l1 with h1 | ⟨l0, q2, h1⟩
            · rw [(hfirst h1).2] at hq; simp at hq
            · rw [List.concat_eq_append] at h1
              have := (hinner l0 q2 h1).2.2.2
              rw [this] at hq
              simp only [Option.some.injEq] at hq
              subst hq; subst hsplit; subst h1; simp
          obtain ⟨-, hpar, -, hpv, hnxt⟩ := hs
          intro x hx
          rw [hpar] at hx
          rw [hpv, hnxt]
          by_cases hxe : x = e
          · simp [hxe]
          · simp only [hxe, if_false] at hx ⊢
            have hxn : x ≠ n := by
              intro hc; subst hc; rw [hnp] at hx; simp at hx
            have hxq : (rd w e).prevSibling ≠ some x := by
              intro hc; have := hqp x hc; rw [this] at hx; simp at hx
            simpa [hxn, hxq] using hr x hx

theorem setParent_rootsClean (fuel : Nat) (w v : World) (entity parent : EntityHandle)
    (hinv : SiblingListInv w) (hr : RootsClean w)
    (h : setParentVal fuel w entity parent = .ok v) : RootsClean v := by
  have h0 := h
  simp only [setParentVal] at h0
  obtain ⟨w1, h1, h2⟩ := (bind_eq_ok _ _ _).1 h0
  have hinv1 := removeParent_inv w w1 entity hinv h1
  have hr1 := removeParent_rootsClean w w1 entity hinv hr h1
  cases entity with
  | none => simp [removeParent] at h1
  | some e =>
    cases parent with
    | none =>
      simp only [getOrAdd_some, ok_bind, getOrAdd_none, error_bind] at h2
      cases h2
    | some p =>
      obtain ⟨c1, c2, c3, c4⟩ := removeParent_cleared w w1 e h1
      rw [setParent_unfold fuel w w1 e (some p) h1] at h
      obtain ⟨l, hl⟩ := hinv1 p
      obtain ⟨v2, hv2, happ⟩ := setParent_root (fuel + l.length) w1 e p l c1 c2 hl (by omega)
      have := setParent_mono fuel l.length w1 v (some e) (some p) h
      rw [this] at hv2
      cases hv2
      obtain ⟨-, hpar, -, hpv, hnxt⟩ := happ
      intro x hx
      rw [hpar] at hx
      rw [hpv, hnxt]
      by_cases hxe : x = e
      · simp [hxe] at hx
      · simp only [hxe, if_false] at hx ⊢
        have hxl : l.getLast? ≠ some x := by
          intro hc
          have := (hl.2.2 x).1 (List.mem_of_getLast?_eq_some hc)
          rw [this] at hx; simp at hx
        simpa [hxl] using hr1 x hx

theorem runCalls_rootsClean (fuel : Nat) (calls : List Call) :
    ∀ w v, SiblingListInv w → RootsClean w → runCalls fuel w calls = .ok v →
      RootsClean v := by
  induction calls with
  | nil => intro w v _ hr h; cases h; exact hr
  | cons c cs ih =>
    intro w v hinv hr h
    simp only [runCalls] at h
    obtain ⟨w1, h1, h2⟩ := (bind_eq_ok _ _ _).1 h
    cases c with
    | setParent entity parent =>
      exact ih w1 v (setParent_inv fuel w w1 entity parent hinv h1)
        (setParent_rootsClean fuel w w1 entity parent hinv hr h1) h2
    | removeParent entity =>
      exact ih w1 v (removeParent_inv w w1 entity hinv h1)
        (removeParent_rootsClean w w1 entity hinv hr h1) h2


theorem get_ne_outOfFuel (w : World) (h : EntityHandle) : get w h ≠ .error .outOfFuel := by
  unfold get
  cases h with
  | none => simp
  | some e => dsimp only; split <;> simp

theorem bind_eq_error {α β : Type} (x : Except Failure α) (f : α → Except Failure β)
    (e : Failure) :
    (x >>= f) = .error e ↔ x = .error e ∨ ∃ a, x = .ok a ∧ f a = .error e := by
  cases x with
  | error e2 => simp
  | ok a => simp

theorem assert_ne_outOfFuel (b : Bool) : assert b ≠ .error .outOfFuel := by
  unfold assert
  split <;> simp

theorem removeParent_ne_outOfFuel (w : World) (entity : EntityHandle) :
    removeParent w entity ≠ .error .outOfFuel := by
  intro h
  simp only [removeParent, pure_eq_ok, ok_bind] at h
  rcases (bind_eq_error _ _ _).1 h with h1 | ⟨e, -, h1⟩
  · exact get_ne_outOfFuel _ _ h1
  split at h1
  · rcases (bind_eq_error _ _ _).1 h1 with h2 | ⟨p, -, h2⟩
    · exact get_ne_outOfFuel _ _ h2
    rcases (bind_eq_error _ _ _).1 h2 with h3 | ⟨-, -, h3⟩
    · exact assert_ne_outOfFuel _ h3
    split at h3
    · rcases (bind_eq_error _ _ _).1 h3 with h4 | ⟨-, -, h4⟩
      · exact assert_ne_outOfFuel _ h4
      rcases (bind_eq_error _ _ _).1 h4 with h5 | ⟨n, -, h5⟩
      · exact get_ne_outOfFuel _ _ h5
      · cases h5
    · rcases (bind_eq_error _ _ _).1 h3 with h4 | ⟨-, -, h4⟩
      · exact assert_ne_outOfFuel _ h4
      rcases (bind_eq_error _ _ _).1 h4 with h5 | ⟨q, -, h5⟩
      · exact get_ne_outOfFuel _ _ h5
      rcases (bind_eq_error _ _ _).1 h5 with h6 | ⟨n, -, h6⟩
      · exact get_ne_outOfFuel _ _ h6
      · cases h6
  · cases h1

theorem lastSibling_stable (w : World) (fuel : Nat) :
    ∀ cur k, lastSibling fuel w cur ≠ .error .outOfFuel →
      lastSibling (fuel + k) w cur = lastSibling fuel w cur := by
  induction fuel with
  | zero => intro cur k h; simp [lastSibling] at h
  | succ f ih =>
    intro cur k h
    rw [show f + 1 + k = (f + k) + 1 by omega]
    simp only [lastSibling] at h ⊢
    cases hg : get w cur with
    | error x => simp
    | ok c =>
      rw [hg] at h
      simp only [ok_bind] at h ⊢
      split
      · rename_i hn
        simp only [hn, if_true] at h
        have h2 : lastSibling f w (rd w c).nextSibling ≠ .error .outOfFuel := by
          intro hc; rw [hc] at h; exact h rfl
        rw [ih _ k h2]
      · rfl

theorem setParent_stable (fuel k : Nat) (w : World) (entity parent : EntityHandle)
    (h : setParentVal fuel w entity parent ≠ .error .outOfFuel) :
    setParentVal (fuel + k) w entity parent = setParentVal fuel w entity parent := by
  simp only [setParentVal] at h ⊢
  cases h1 : removeParent w entity with
  | error x => simp
  | ok w1 =>
    rw [h1] at h
    simp only [ok_bind] at h ⊢
    cases h2 : getOrAdd w1 entity with
    | error x => simp
    | ok a =>
      rw [h2] at h
      simp only [ok_bind] at h ⊢
      cases h3 : getOrAdd (wrParent a.1 a.2 parent) parent with
      | error x => simp
      | ok b =>
        rw [h3] at h
        simp only [ok_bind] at h ⊢
        split
        · rfl
        · rename_i hn
          simp only [hn] at h
          have h4 : lastSibling fuel b.1 (rd b.1 b.2).firstChild ≠ .error .outOfFuel := by
            intro hc; rw [hc] at h; exact h rfl
          rw [lastSibling_stable _ _ _ k h4]

theorem runCalls_stable (k : Nat) (calls : List Call) :
    ∀ fuel w, runCalls fuel w calls ≠ .error .outOfFuel →
      runCalls (fuel + k) w calls = runCalls fuel w calls := by
  induction calls with
  | nil => intro fuel w _; rfl
  | cons c cs ih =>
    intro fuel w h
    simp only [runCalls] at h ⊢
    have hc : c.run (fuel + k) w = c.run fuel w := by
      cases c with
      | setParent entity parent =>
        refine setParent_stable fuel k w entity parent ?_
        intro hx
        simp only [Call.run, setParent_var, hx] at h
        exact h rfl
      | removeParent entity => rfl
    rw [hc]
    cases h1 : c.run fuel w with
    | error x => rfl
    | ok w1 =>
      rw [h1] at h
      simp only [ok_bind] at h ⊢
      exact ih fuel w1 h

theorem setParent_total (w : World) (entity parent : EntityHandle)
    (hinv : SiblingListInv w) :
    ∃ fuel, setParentVal fuel w entity parent ≠ .error .outOfFuel := by
  cases h1 : removeParent w entity with
  | error x =>
    refine ⟨0, ?_⟩
    simp only [setParentVal, h1, error_bind]
    intro hx
    injection hx with hx
    exact removeParent_ne_outOfFuel w entity (by rw [h1, hx])
  | ok w1 =>
    cases entity with
    | none => simp [removeParent] at h1
    | some e =>
      cases parent with
      | none =>
        refine ⟨0, ?_⟩
        simp [setParentVal, h1, getOrAdd_some, getOrAdd_none]
      | some p =>
        obtain ⟨c1, c2, -, -⟩ := removeParent_cleared w w1 e h1
        obtain ⟨l, hl⟩ := removeParent_inv w w1 _ hinv h1 p
        obtain ⟨v, hv, -⟩ := setParent_root l.length w1 e p l c1 c2 hl (le_refl _)
        refine ⟨l.length, ?_⟩
        rw [setParent_unfold l.length w w1 e (some p) h1, hv]
        simp

theorem runCalls_total (calls : List Call) :
    ∀ w, SiblingListInv w → ∃ fuel, runCalls fuel w calls ≠ .error .outOfFuel := by
  induction calls with
  | nil => intro w _; exact ⟨0, by simp [runCalls]⟩
  | cons c cs ih =>
    intro w hinv
    have hc : ∃ f1, c.run f1 w ≠ .error .outOfFuel := by
      cases c with
      | setParent entity parent => exact setParent_total w entity parent hinv
      | removeParent entity => exact ⟨0, removeParent_ne_outOfFuel w entity⟩
    obtain ⟨f1, hf1⟩ := hc
    have hstab : ∀ k, c.run (f1 + k) w = c.run f1 w := by
      intro k
      cases c with
      | setParent entity parent => exact setParent_stable f1 k w entity parent hf1
      | removeParent entity => rfl
    cases h1 : c.run f1 w with
    | error x =>
      refine ⟨f1, ?_⟩
      simp only [runCalls, h1, error_bind]
      intro hx
      injection hx with hx
      exact hf1 (by rw [h1, hx])
    | ok w1 =>
      have hinv1 : SiblingListInv w1 := by
        cases c with
        | setParent entity parent => exact setParent_inv f1 w w1 entity parent hinv h1
        | removeParent entity => exact removeParent_inv w w1 entity hinv h1
      obtain ⟨f2, hf2⟩ := ih w1 hinv1
      refine ⟨f1 + f2, ?_⟩
      simp only [runCalls, hstab f2, h1, ok_bind]
      rw [Nat.add_comm, runCalls_stable f1 cs f2 w1 hf2]
      exact hf2

/-- For every attach of a parentless child the following detach fails: the
child has become the last child, and `removeParent` reads the component of its
null next sibling. -/
theorem setParent_then_removeParent_fails (fuel : Nat) (w : World) (e p : Nat)
    (l : List Nat) (hes : (w e).isSome = true) (hp : (rd w e).parent = none)
    (hL : ChildList w p l) (hf : l.length ≤ fuel) :
    (setParentVal fuel w (some e) (some p) >>= fun v => removeParent v (some e))
      = .error .nullHandle := by
  obtain ⟨v, hv, happ⟩ := setParent_root fuel w e p l hes hp hL hf
  rw [hv]
  have hcl := appended_childList w v e p l happ hes hp hL
  refine removeParent_last_fails v p e _ hcl ?_ ?_
  · rw [happ.2.1]; simp
  · rw [happ.2.2.2.2]; simp

/-- C1 (code defect): on a fresh world, attaching entity 1 to entity 0 succeeds
and the following `removeParent` of entity 1 fails with an access through the
null handle, so the parent's child list is not restored. -/
theorem C1_attach_then_detach_fails :
    SiblingListInv freshWorld ∧ (rd freshWorld 1).parent = none ∧
      ∃ v, setParent 1 freshWorld (.var (some 1)) (.var (some 0)) = .ok v ∧
        (rd v 0).firstChild = some 1 ∧
        removeParent v (some 1) = .error .nullHandle :=
  ⟨freshWorld_inv freshWorld (fun _ _ h => (Option.some.inj h).symm), rfl, _, rfl, rfl, rfl⟩

/-- Starting from a world in which every component is default, every
sequence of `setParent`/`removeParent` calls on handles held in variables of
the caller that runs to completion ends in a world that satisfies the
sibling-list invariant: every `p` has a list `l` that the walk from
`p.firstChild` along `nextSibling` visits, without repetition, whose nodes are
exactly the entities with parent `p`, whose first node has a null
`prevSibling`, whose last node has a null `nextSibling` and whose consecutive
nodes point at each other. The loop of `setParent` terminates in every such
run: some step budget is enough, and a larger one changes nothing. -/
theorem completed_runs_keep_invariant (w0 : World)
    (h0 : ∀ e c, w0 e = some c → c = default) (calls : List Call) :
    (∃ fuel0, runCalls fuel0 w0 calls ≠ .error .outOfFuel ∧
      ∀ k, runCalls (fuel0 + k) w0 calls = runCalls fuel0 w0 calls) ∧
    ∀ fuel w, runCalls fuel w0 calls = .ok w →
      SiblingListInv w ∧ ∀ p, ∃ l, ChildList w p l ∧
        (rd w p).firstChild = l.head? ∧ l.Nodup ∧
        (∀ e, e ∈ l ↔ (rd w e).parent = some p) ∧
        (∀ a, l.head? = some a → (rd w a).prevSibling = none) ∧
        (∀ a, l.getLast? = some a → (rd w a).nextSibling = none) ∧
        (∀ l1 a b l2, l = l1 ++ a :: b :: l2 →
          (rd w a).nextSibling = some b ∧ (rd w b).prevSibling = some a) := by
  have hinv0 := freshWorld_inv w0 h0
  refine ⟨?_, ?_⟩
  · obtain ⟨fuel0, hf⟩ := runCalls_total calls w0 hinv0
    exact ⟨fuel0, hf, fun k => runCalls_stable k calls fuel0 w0 hf⟩
  · intro fuel w hrun
    have hinv := runCalls_inv fuel calls w0 w hinv0 hrun
    refine ⟨hinv, fun p => ?_⟩
    obtain ⟨l, hl⟩ := hinv p
    obtain ⟨k1, k2, k3, k4⟩ := childList_links w p l hl
    exact ⟨l, hl, k1, hl.2.1, hl.2.2, k2, k3, k4⟩

theorem chain_unique (w : World) (l : List Nat) :
    ∀ l2 prev prev2 cur, SiblingChain w prev cur l → SiblingChain w prev2 cur l2 → l = l2 := by
  induction l with
  | nil =>
    intro l2 prev prev2 cur h h2
    have hc : cur = none := h
    subst hc
    exact (chain_nil_of_none w prev2 l2 h2).symm
  | cons a rest ih =>
    intro l2 prev prev2 cur h h2
    cases l2 with
    | nil =>
      have hc : cur = none := h2
      rw [hc] at h
      exact absurd h.1 (by simp)
    | cons b t =>
      have hab : a = b := by
        have h1 := h.1
        rw [h2.1] at h1
        exact (Option.some.inj h1).symm
      subst hab
      rw [ih t _ _ _ h.2.2.2 h2.2.2.2]

theorem childList_of_inv (w : World) (p : Nat) (l : List Nat) (hinv : SiblingListInv w)
    (hc : SiblingChain w none (rd w p).firstChild l) : ChildList w p l := by
  obtain ⟨l2, h2⟩ := hinv p
  rw [chain_unique w l l2 _ _ _ hc h2.1]
  exact h2

theorem worldAfter_inv (fuel : Nat) (calls : List Call) :
    SiblingListInv (worldAfter fuel calls) := by
  have hf : SiblingListInv freshWorld :=
    freshWorld_inv freshWorld (fun _ _ h => (Option.some.inj h).symm)
  unfold worldAfter
  cases h : runCalls fuel freshWorld calls with
  | error x => exact hf
  | ok w => exact runCalls_inv fuel calls freshWorld w hf h

/-- C2 (code defect): in the world where entity 0 has the children 1, 2 and 3,
which satisfies the sibling-list invariant, the call `setParent(h0.firstChild,
e4)`, whose first argument is the `firstChild` field of the component of
entity 0, completes and breaks the invariant: line 74 overwrites the handle
the argument refers to, so entity 1 is detached and entity 2 is given the
parent 4 while it is still the first child of 0, and entity 3 keeps the parent
0 but is no longer reached from `0.firstChild`. -/
theorem C2_aliased_call_breaks_invariant :
    runCalls 3 freshWorld [.setParent (some 1) (some 0), .setParent (some 2) (some 0),
        .setParent (some 3) (some 0)] = .ok threeChildren ∧
      SiblingListInv threeChildren ∧ ChildList threeChildren 0 [1, 2, 3] ∧
      HandleRef.read threeChildren (.field 0 .firstChild) = some 1 ∧
      setParent 3 threeChildren (.field 0 .firstChild) (.var (some 4)) = .ok aliasedResult ∧
      (rd aliasedResult 0).firstChild = some 2 ∧ (rd aliasedResult 2).parent = some 4 ∧
      (rd aliasedResult 2).nextSibling = none ∧ (rd aliasedResult 3).parent = some 0 ∧
      (rd aliasedResult 1).parent = none ∧ ¬ SiblingListInv aliasedResult := by
  refine ⟨rfl, worldAfter_inv _ _,
    childList_of_inv _ 0 [1, 2, 3] (worldAfter_inv _ _)
      ⟨rfl, rfl, rfl, rfl, rfl, rfl, rfl, rfl, rfl, rfl⟩,
    rfl, rfl, rfl, rfl, rfl, rfl, rfl, ?_⟩
  intro hinv
  obtain ⟨l, hl⟩ := hinv 0
  have hc : SiblingChain aliasedResult none (rd aliasedResult 0).firstChild [2] :=
    ⟨rfl, rfl, rfl, rfl⟩
  have hl2 : l = [2] := chain_unique aliasedResult l [2] _ _ _ hl.1 hc
  subst hl2
  have h2 : (rd aliasedResult 2).parent = some 0 := (hl.2.2 2).1 (by simp)
  have h4 : (rd aliasedResult 2).parent = some 4 := rfl
  rw [h4] at h2
  exact absurd h2 (by decide)

/-- C3: `setParent` on an entity that holds a component and has no parent
appends it to the child list of the parent: the list becomes the previous one
followed by the entity, whose parent is the new parent, whose next sibling is
null and whose previous sibling is the former last child (null for an empty
list, and then the entity is the first child). The hypothesis that the parent
differs from the entity is not needed. -/
theorem C3_setParent_appends_last (fuel : Nat) (w : World) (e p : Nat) (l : List Nat)
    (hinv : SiblingListInv w) (hL : ChildList w p l) (hes : (w e).isSome = true)
    (hp : (rd w e).parent = none) (hf : l.length ≤ fuel) :
    ∃ v, setParent fuel w (.var (some e)) (.var (some p)) = .ok v ∧
      ChildList v p (l ++ [e]) ∧ SiblingListInv v ∧
      (rd v e).parent = some p ∧ (rd v e).nextSibling = none ∧
      (rd v e).prevSibling = l.getLast? ∧
      (l = [] → (rd v p).firstChild = some e) ∧
      (l ≠ [] → (rd v p).firstChild = (rd w p).firstChild) := by
  obtain ⟨v, hv, happ⟩ := setParent_root fuel w e p l hes hp hL hf
  refine ⟨v, hv, appended_childList w v e p l happ hes hp hL,
    setParent_inv fuel w v _ _ hinv hv, ?_, ?_, ?_, ?_, ?_⟩
  · rw [happ.2.1]; simp
  · rw [happ.2.2.2.2]; simp
  · rw [happ.2.2.2.1]; simp
  · intro h; rw [happ.2.2.1]; simp [h]
  · intro h; rw [happ.2.2.1]; simp [h]

theorem C3_setParent_appends_last_witness :
    ∃ v, setParent 1 (worldAfter 1 [.setParent (some 1) (some 0)]) (.var (some 2))
        (.var (some 0)) = .ok v ∧
      ChildList v 0 ([1] ++ [2]) ∧ SiblingListInv v ∧
      (rd v 2).parent = some 0 ∧ (rd v 2).nextSibling = none ∧
      (rd v 2).prevSibling = [1].getLast? ∧
      (([1] : List Nat) = [] → (rd v 0).firstChild = some 2) ∧
      (([1] : List Nat) ≠ [] → (rd v 0).firstChild
        = (rd (worldAfter 1 [.setParent (some 1) (some 0)]) 0).firstChild) :=
  C3_setParent_appends_last 1 (worldAfter 1 [.setParent (some 1) (some 0)]) 2 0 [1]
    (worldAfter_inv _ _)
    (childList_of_inv _ 0 [1] (worldAfter_inv _ _) ⟨rfl, rfl, rfl, rfl⟩)
    rfl rfl (by decide)

/-- C4 (code defect): in the world where entity 0 has the children 1 and 2,
which satisfies the sibling-list invariant, `removeParent` of the last child 2
does not complete: it reads the component of the null next sibling. -/
theorem C4_removeParent_last_child_fails :
    runCalls 2 freshWorld [.setParent (some 1) (some 0), .setParent (some 2) (some 0)]
        = .ok twoChildren ∧
      SiblingListInv twoChildren ∧ ChildList twoChildren 0 [1, 2] ∧
      (rd twoChildren 2).parent = some 0 ∧ (rd twoChildren 2).nextSibling = none ∧
      removeParent twoChildren (some 2) = .error .nullHandle :=
  ⟨rfl, worldAfter_inv _ _,
    childList_of_inv _ 0 [1, 2] (worldAfter_inv _ _) ⟨rfl, rfl, rfl, rfl, rfl, rfl, rfl⟩,
    rfl, rfl, rfl⟩

theorem setParent_first_child (fuel : Nat) (w : World) (e p : Nat)
    (hes : (w e).isSome = true) (hp : (rd w e).parent = none)
    (hfc : (rd w p).firstChild = none) :
    setParentVal fuel w (some e) (some p) = .ok (wrNext (wrPrev (wrFirstChild
      (ensure (wrParent (wrNext (wrPrev (wrParent w e none) e none) e none) e (some p)) p)
      p (some e)) e none) e none) := by
  have he1 : ensure (wrNext (wrPrev (wrParent w e none) e none) e none) e
      = wrNext (wrPrev (wrParent w e none) e none) e none :=
    ensure_of_isSome _ _ (by simpa using hes)
  simp [setParentVal, removeParent_root w e hes hp, getOrAdd_some, hfc, he1]

/-- C5 (code defect): on entities that hold no Hierarchy component neither
mutator completes. `removeParent` reads the component of the entity with `get`
and reports the missing component; `setParent` calls `removeParent` first, so
it fails in the same way before its own `getOrAdd` on the entity is reached. -/
theorem C5_entity_without_component_fails :
    emptyWorld 1 = none ∧ emptyWorld 0 = none ∧
      removeParent emptyWorld (some 1) = .error .missingComponent ∧
      setParent 0 emptyWorld (.var (some 1)) (.var (some 0)) = .error .missingComponent ∧
      setParent 0 (fun x => if x = 0 then some default else none) (.var (some 1))
        (.var (some 0)) = .error .missingComponent :=
  ⟨rfl, rfl, rfl, rfl, rfl⟩

/-- The part of the tolerance that the code has: `setParent` on an entity that
holds a component and has no parent completes for a parent that holds none;
the parent gets a component that is default but for its first child, the
entity, and no other entity gains or loses a component. -/
theorem setParent_adds_parent_component (fuel : Nat) (w : World) (e p : Nat)
    (hes : (w e).isSome = true) (hp : (rd w e).parent = none) (hpn : w p = none) :
    ∃ v, setParent fuel w (.var (some e)) (.var (some p)) = .ok v ∧
      v p = some ⟨none, some e, none, none⟩ ∧ (rd v e).parent = some p ∧
      ∀ y, y ≠ p → (v y).isSome = (w y).isSome := by
  have hfc : (rd w p).firstChild = none := by simp [rd, hpn, default]
  have hpe : p ≠ e := by
    intro h; subst h; simp [hpn] at hes
  refine ⟨_, setParent_first_child fuel w e p hes hp hfc, ?_, ?_, ?_⟩
  · simp [wrNext, wrPrev, wrFirstChild, wrParent, modify, ensure, hpn, hpe, default]
  · simp [hes]
  · intro y hy
    simp [hy]

/-- C9: `removeParent` on an entity `e` with parent `p` and next sibling `n`
completes; when `e` was the first child, `n` becomes the first child and has a
null previous sibling; otherwise the first child is unchanged and the former
previous sibling `q` of `e` and `n` point at each other; the parent, previous
and next sibling of `e` are null and `p` still has a child list. -/
theorem C9_removeParent_links (w : World) (e p n : Nat) (hinv : SiblingListInv w)
    (hp : (rd w e).parent = some p) (hn : (rd w e).nextSibling = some n) :
    ∃ v, removeParent w (some e) = .ok v ∧
      ((rd w p).firstChild = some e →
        (rd v p).firstChild = some n ∧ (rd v n).prevSibling = none) ∧
      ((rd w p).firstChild ≠ some e →
        (rd v p).firstChild = (rd w p).firstChild ∧
        ∃ q, (rd w e).prevSibling = some q ∧ (rd v q).nextSibling = some n ∧
          (rd v n).prevSibling = some q) ∧
      (rd v e).parent = none ∧ (rd v e).prevSibling = none ∧
      (rd v e).nextSibling = none ∧
      (∃ l, ChildList w p l ∧ ChildList v p (l.erase e)) ∧ SiblingListInv v := by
  obtain ⟨l, hl⟩ := hinv p
  obtain ⟨v, hv, hs⟩ := removeParent_spliced w p e n l hl hp hn
  obtain ⟨l1, l2, hsplit, hes, hps, hnx, hfirst, hinner⟩ := child_split w p e l hl hp
  have hnd : (l1 ++ e :: l2).Nodup := hsplit ▸ hl.2.1
  have hne : n ≠ e := by
    intro h
    subst h
    rw [hn] at hnx
    have hmem : n ∈ l2 := List.mem_of_mem_head? hnx.symm
    have := (List.nodup_cons.1 (List.nodup_append.1 hnd).2.1).1
    exact this hmem
  have hcl := spliced_childList w v p e n l hs hl hp hn
  obtain ⟨hsome, hpar, hfc, hpv, hnxt⟩ := hs
  refine ⟨v, hv, ?_, ?_, ?_, ?_, ?_, ⟨l, hl, hcl⟩, removeParent_inv w v _ hinv hv⟩
  · intro hf
    rcases List.eq_nil_or_concat l1 with h | ⟨l0, q, h⟩
    · refine ⟨by rw [hfc]; simp [hf], ?_⟩
      rw [hpv]; simp [hne, (hfirst h).2]
    · rw [List.concat_eq_append] at h
      obtain ⟨⟨c, hc1, hc2⟩, -⟩ := hinner l0 q h
      rw [hc1] at hf
      exact absurd (Option.some.inj hf) hc2
  · intro hf
    rcases List.eq_nil_or_concat l1 with h | ⟨l0, q, h⟩
    · exact absurd (hfirst h).1 hf
    · rw [List.concat_eq_append] at h
      obtain ⟨-, hqs, hqn, hqp⟩ := hinner l0 q h
      have hqe : q ≠ e := by
        intro hq
        subst hq
        subst h
        have : q ∈ l0 ++ [q] := by simp
        exact (List.nodup_append.1 hnd).2.2 this (by simp)
      refine ⟨by rw [hfc]; simp [hf], q, hqp, ?_, ?_⟩
      · rw [hnxt]; simp [hqe, hqp]
      · rw [hpv]; simp [hne, hqp]
  · rw [hpar]; simp
  · rw [hpv]; simp
  · rw [hnxt]; simp

theorem C9_removeParent_links_witness :
    ∃ v, removeParent threeChildren (some 2) = .ok v ∧
      ((rd threeChildren 0).firstChild = some 2 →
        (rd v 0).firstChild = some 3 ∧ (rd v 3).prevSibling = none) ∧
      ((rd threeChildren 0).firstChild ≠ some 2 →
        (rd v 0).firstChild = (rd threeChildren 0).firstChild ∧
        ∃ q, (rd threeChildren 2).prevSibling = some q ∧ (rd v q).nextSibling = some 3 ∧
          (rd v 3).prevSibling = some q) ∧
      (rd v 2).parent = none ∧ (rd v 2).prevSibling = none ∧
      (rd v 2).nextSibling = none ∧
      (∃ l, ChildList threeChildren 0 l ∧ ChildList v 0 (l.erase 2)) ∧ SiblingListInv v :=
  C9_removeParent_links threeChildren 2 0 3 (worldAfter_inv _ _) rfl rfl

theorem get_eq_ok (w : World) (h : EntityHandle) (x : Nat) :
    get w h = .ok x ↔ h = some x ∧ (w x).isSome = true := by
  cases h with
  | none => simp [get]
  | some e =>
    simp only [get]
    split
    · rename_i hs
      constructor
      · intro h; cases h; exact ⟨rfl, hs⟩
      · intro h; cases h.1; rfl
    · rename_i hs
      constructor
      · intro h; cases h
      · intro h; cases h.1; exact absurd h.2 hs

theorem assert_eq_ok (b : Bool) (u : Unit) : assert b = .ok u ↔ b = true := by
  cases b <;> simp [assert]

/-- The three ways in which `removeParent` completes, with the store it returns. -/
theorem removeParent_cases (w v : World) (e : Nat) (h : removeParent w (some e) = .ok v) :
    (w e).isSome = true ∧
      (((rd w e).parent = none ∧ v = wrNext (wrPrev (wrParent w e none) e none) e none) ∨
       (∃ p n, (rd w e).parent = some p ∧ (rd w e).nextSibling = some n ∧
          (rd w p).firstChild = some e ∧
          v = wrNext (wrPrev (wrParent
            (wrPrev (wrFirstChild w p (some n)) n (rd w e).prevSibling)
              e none) e none) e none) ∨
       (∃ p q n, (rd w e).parent = some p ∧ (rd w e).nextSibling = some n ∧
          (rd w e).prevSibling = some q ∧ (rd w p).firstChild ≠ some e ∧
          v = wrNext (wrPrev (wrParent
            (wrPrev (wrNext w q (some n)) n (some q)) e none) e none) e none)) := by
  cases hes : (w e).isSome with
  | false => simp [removeParent, get_missing w e hes] at h
  | true =>
    refine ⟨rfl, ?_⟩
    simp only [removeParent, get_some w e hes, ok_bind, pure_eq_ok] at h
    split at h
    · rename_i hpar
      obtain ⟨p, hp, h3⟩ := (bind_eq_ok _ _ _).1 h
      obtain ⟨hp1, -⟩ := (get_eq_ok _ _ _).1 hp
      obtain ⟨-, -, h4⟩ := (bind_eq_ok _ _ _).1 h3
      split at h4
      · rename_i hfc
        obtain ⟨-, -, h5⟩ := (bind_eq_ok _ _ _).1 h4
        obtain ⟨n, hn, h6⟩ := (bind_eq_ok _ _ _).1 h5
        obtain ⟨hn1, -⟩ := (get_eq_ok _ _ _).1 hn
        simp only [next_wrFirstChild] at hn1
        refine Or.inr (Or.inl ⟨p, n, hp1, hn1, hfc, ?_⟩)
        cases h6
        simp only [prev_wrFirstChild, hn1]
      · rename_i hfc
        obtain ⟨-, ha, h5⟩ := (bind_eq_ok _ _ _).1 h4
        obtain ⟨q, hq, h6⟩ := (bind_eq_ok _ _ _).1 h5
        obtain ⟨hq1, -⟩ := (get_eq_ok _ _ _).1 hq
        obtain ⟨n, hn, h7⟩ := (bind_eq_ok _ _ _).1 h6
        obtain ⟨hn1, -⟩ := (get_eq_ok _ _ _).1 hn
        have hn2 : (rd w e).nextSibling = some n := by
          simp only [next_wrNext] at hn1
          split at hn1 <;> exact hn1
        refine Or.inr (Or.inr ⟨p, q, n, hp1, hn2, hq1, hfc, ?_⟩)
        cases h7
        simp only [prev_wrNext, hn2, hq1]
    · rename_i hpar
      cases h
      refine Or.inl ⟨?_, rfl⟩
      cases hp : (rd w e).parent with
      | none => rfl
      | some p => simp [hp] at hpar

theorem removeParent_frame (w v : World) (e : Nat) (h : removeParent w (some e) = .ok v) :
    Frame w v e none (fun _ => False) := by
  obtain ⟨hes, hc⟩ := removeParent_cases w v e h
  rcases hc with ⟨hp, rfl⟩ | ⟨p, n, hp, hn, hfc, rfl⟩ | ⟨p, q, n, hp, hn, hq, hfc, rfl⟩
  · refine ⟨fun x hx => by simpa using hx, fun x _ => by simp, fun x hx => by simp [hx],
      fun x _ _ => by simp, fun x hx _ => by simp [hx], fun x hx _ _ => by simp [hx]⟩
  · refine ⟨fun x hx => by simpa using hx, fun x _ => by simp, fun x hx => by simp [hx],
      fun x hx _ => ?_, fun x hx hx2 => ?_, fun x hx _ _ => by simp [hx]⟩
    · have hxp : x ≠ p := fun hc => hx (by rw [hp, hc])
      simp [hxp]
    · have hxn : x ≠ n := fun hc => hx2 (by rw [hn, hc])
      simp [hx, hxn]
  · refine ⟨fun x hx => by simpa using hx, fun x _ => by simp, fun x hx => by simp [hx],
      fun x _ _ => by simp, fun x hx hx2 => ?_, fun x hx hx2 _ => ?_⟩
    · have hxn : x ≠ n := fun hc => hx2 (by rw [hn, hc])
      simp [hx, hxn]
    · have hxq : x ≠ q := fun hc => hx2 (by rw [hq, hc])
      simp [hx, hxq]

theorem lastSibling_congr (w v : World) (hs : ∀ x, (v x).isSome = (w x).isSome)
    (hn : ∀ x, (rd v x).nextSibling = (rd w x).nextSibling) (fuel : Nat) :
    ∀ cur, lastSibling fuel v cur = lastSibling fuel w cur := by
  induction fuel with
  | zero => intro cur; rfl
  | succ f ih =>
    intro cur
    have hg : get v cur = get w cur := by
      cases cur with
      | none => rfl
      | some c => simp [get, hs]
    simp only [lastSibling, hg]
    cases hgc : get w cur with
    | error x => rfl
    | ok c => simp only [ok_bind, hn, ih]

/-- The two ways in which `setParent` completes, with the store it returns:
`w1` is the store after the `removeParent` step, `w4` the store in which the
parent is given to the entity and the new parent holds a component. -/
theorem setParent_cases (fuel : Nat) (w v : World) (e : Nat) (parent : EntityHandle)
    (h : setParentVal fuel w (some e) parent = .ok v) :
    ∃ w1 p w4, parent = some p ∧ removeParent w (some e) = .ok w1 ∧
      w4 = ensure (wrParent w1 e (some p)) p ∧
      (((rd w1 p).firstChild = none ∧
          v = wrNext (wrPrev (wrFirstChild w4 p (some e)) e none) e none) ∨
       (∃ l, WalkEnd w1 p l ∧ (w1 l).isSome = true ∧
          v = wrNext (wrPrev (wrNext w4 l (some e)) e (some l)) e none)) := by
  have h0 := h
  simp only [setParentVal] at h0
  obtain ⟨w1, h1, h2⟩ := (bind_eq_ok _ _ _).1 h0
  obtain ⟨c1, -, -, -⟩ := removeParent_cleared w w1 e h1
  cases parent with
  | none =>
    simp only [getOrAdd_some, ok_bind, getOrAdd_none, error_bind] at h2
    cases h2
  | some p =>
    refine ⟨w1, p, _, rfl, h1, rfl, ?_⟩
    simp only [getOrAdd_some, ok_bind, ensure_of_isSome w1 e c1, pure_eq_ok] at h2
    split at h2
    · rename_i hfc
      left
      refine ⟨?_, ?_⟩
      · simpa using hfc
      · cases h2; rfl
    · rename_i hfc
      right
      obtain ⟨r, hr, h3⟩ := (bind_eq_ok _ _ _).1 h2
      obtain ⟨l, hl, h4⟩ := (bind_eq_ok _ _ _).1 h3
      obtain ⟨hl1, hl2⟩ := (get_eq_ok _ _ _).1 hl
      have hfc1 : (rd w1 p).firstChild ≠ none := by
        intro hc; exact hfc (by simp [hc])
      obtain ⟨c, hc⟩ := Option.ne_none_iff_exists'.1 hfc1
      have hps : (w1 p).isSome = true := isSome_of_firstChild w1 p c hc
      have hs4 : ∀ x, ((ensure (wrParent w1 e (some p)) p) x).isSome = (w1 x).isSome := by
        intro x
        by_cases hx : x = p
        · subst hx; simp [hps]
        · simp [hx]
      have hwalk := lastSibling_congr w1 (ensure (wrParent w1 e (some p)) p) hs4
        (fun x => by simp) fuel (rd w1 p).firstChild
      have hfc4 : (rd (ensure (wrParent w1 e (some p)) p) p).firstChild
          = (rd w1 p).firstChild := by simp
      rw [hfc4, hwalk] at hr
      refine ⟨l, ⟨fuel, r.2, ?_⟩, ?_, ?_⟩
      · rw [hr, ← hl1]
      · rw [← hs4]; exact hl2
      · cases h4
        rw [hl1]

theorem setParent_frame (fuel : Nat) (w v : World) (e p : Nat)
    (h : setParentVal fuel w (some e) (some p) = .ok v) :
    Frame w v e (some p)
      (fun x => ∃ w1, removeParent w (some e) = .ok w1 ∧ WalkEnd w1 p x) := by
  obtain ⟨w1, p2, w4, hp2, h1, hw4, hc⟩ := setParent_cases fuel w v e (some p) h
  cases hp2
  obtain ⟨f0, f1, f2, f3, f4, f5⟩ := removeParent_frame w w1 e h1
  obtain ⟨c1, -, -, -⟩ := removeParent_cleared w w1 e h1
  subst hw4
  rcases hc with ⟨-, rfl⟩ | ⟨l, hl, hls, rfl⟩
  · refine ⟨fun x hx => ?_, fun x hx => ?_, fun x hx => ?_, fun x hx hx2 => ?_,
      fun x hx hx2 => ?_, fun x hx hx2 _ => ?_⟩
    · simp [f0 x hx]
    · have hxp : x ≠ p := fun hc => hx (by rw [hc])
      simp [hxp, f1 x (by simp)]
    · simp [hx, f2 x hx]
    · have hxp : x ≠ p := fun hc => hx2 (by rw [hc])
      simp [hxp, f3 x hx (by simp)]
    · simp [hx, f4 x hx hx2]
    · simp [hx, f5 x hx hx2 (fun hf => hf)]
  · refine ⟨fun x hx => ?_, fun x hx => ?_, fun x hx => ?_, fun x hx hx2 => ?_,
      fun x hx hx2 => ?_, fun x hx hx2 hx3 => ?_⟩
    · simp [f0 x hx]
    · have hxp : x ≠ p := fun hc => hx (by rw [hc])
      simp [hxp, f1 x (by simp)]
    · simp [hx, f2 x hx]
    · simp [f3 x hx (by simp)]
    · simp [hx, f4 x hx hx2]
    · have hxl : x ≠ l := by
        intro hc; subst hc
        exact hx3 ⟨w1, h1, hl⟩
      simp [hx, hxl, f5 x hx hx2 (fun hf => hf)]

theorem walkEnd_childList (w : World) (p x : Nat) (l : List Nat) (hL : ChildList w p l)
    (h : WalkEnd w p x) : l.getLast? = some x := by
  obtain ⟨fuel, k, hk⟩ := h
  cases l with
  | nil =>
    have hfc : (rd w p).firstChild = none := hL.1
    rw [hfc] at hk
    cases fuel with
    | zero => simp [lastSibling] at hk
    | succ f => simp [lastSibling] at hk
  | cons a t =>
    have h1 := lastSibling_chain w (a :: t) none _ (fuel + (a :: t).length) (by simp)
      hL.1 (by omega)
    rw [lastSibling_mono w fuel _ _ _ hk] at h1
    injection h1 with h1
    exact (congrArg Prod.fst h1).symm

theorem childList_unique (w : World) (p : Nat) (l l2 : List Nat) (h : ChildList w p l)
    (h2 : ChildList w p l2) : l = l2 :=
  chain_unique w l l2 _ _ _ h.1 h2.1

/-- A completed `removeParent` leaves every parent with a child list that ends
on the same node as before. -/
theorem removeParent_keeps_last (w w1 : World) (e p : Nat) (l : List Nat)
    (hinv : SiblingListInv w) (hL : ChildList w p l)
    (h : removeParent w (some e) = .ok w1) :
    ∃ l2, ChildList w1 p l2 ∧ l2.getLast? = l.getLast? := by
  obtain ⟨hes, -⟩ := removeParent_cases w w1 e h
  cases hp : (rd w e).parent with
  | none =>
    rw [removeParent_root w e hes hp] at h
    cases h
    exact ⟨l, cleared_childList w e p l hp hL, rfl⟩
  | some p0 =>
    obtain ⟨l0, hl0⟩ := hinv p0
    cases hn : (rd w e).nextSibling with
    | none => rw [removeParent_last_fails w p0 e l0 hl0 hp hn] at h; cases h
    | some n =>
      obtain ⟨w2, hw2, hs⟩ := removeParent_spliced w p0 e n l0 hl0 hp hn
      rw [hw2] at h
      cases h
      by_cases hpp : p = p0
      · subst hpp
        have hll : l0 = l := childList_unique w p l0 l hl0 hL
        subst hll
        refine ⟨_, spliced_childList w w1 p e n l0 hs hl0 hp hn, ?_⟩
        obtain ⟨l1, l2, hsplit, -, -, hnx, -, -⟩ := child_split w p e l0 hl0 hp
        subst hsplit
        have he1 : e ∉ l1 := fun hm => (List.nodup_append.1 hl0.2.1).2.2 hm (by simp)
        rw [List.erase_append_right _ he1, List.erase_cons_head]
        cases l2 with
        | nil => rw [hn] at hnx; simp at hnx
        | cons b t =>
          rw [List.getLast?_append, List.getLast?_append, List.getLast?_cons_cons]
      · exact ⟨l, spliced_childList_other w w1 p0 e n p l0 l hs hl0 hp hn hpp hL, rfl⟩

/-- C11 (counterexample): two completed calls that leave the frame. In a
world built by `setParent` alone where entity 1 is its own parent and first
child, with the child 2 after it, `setParent(1, 0)`, on an entity different
from the new parent, changes the first child of entity 1 from 1 to 2. In the
world where entity 0 has the children 1 and 2, `setParent(h0.firstChild, e3)`,
whose first argument is the `firstChild` field of the component of entity 0
and holds the handle of entity 1 at the call, changes the parent of entity 2
from 0 to 3. -/
theorem C11_frame_counterexamples :
    (runCalls 1 freshWorld [.setParent (some 1) (some 1), .setParent (some 2) (some 1)]
        = .ok selfParent ∧
      SiblingListInv selfParent ∧ (rd selfParent 1).parent = some 1 ∧
      (rd selfParent 1).firstChild = some 1 ∧
      ∃ v, setParent 1 selfParent (.var (some 1)) (.var (some 0)) = .ok v ∧
        (rd v 1).firstChild = some 2) ∧
    (SiblingListInv twoChildren ∧
      HandleRef.read twoChildren (.field 0 .firstChild) = some 1 ∧
      (rd twoChildren 2).parent = some 0 ∧
      ∃ v, setParent 2 twoChildren (.field 0 .firstChild) (.var (some 3)) = .ok v ∧
        (rd v 2).parent = some 3) :=
  ⟨⟨rfl, worldAfter_inv _ _, rfl, rfl, _, rfl, rfl⟩,
    ⟨worldAfter_inv _ _, rfl, rfl, _, rfl, rfl⟩⟩

/-- C11 (amended): a completed `setParent` or `removeParent` call on handles
held in variables of the caller, with entity `e`, changes no field other than
the parent, previous and next sibling of `e`, the first child of the old and
of the new parent, the next sibling of the old previous sibling of `e`, the
previous sibling of the old next sibling of `e` and the next sibling of the new
parent's former last child; no entity loses its component and only the new
parent may gain one. When `e` is neither its own parent before the call nor
the new parent, its own first child is unchanged. Under the sibling-list
invariant the former last child is the last node of the child list of the new
parent. -/
theorem C11_frame_of_mutators (fuel : Nat) (w v : World) (c : Call)
    (hrun : c.run fuel w = .ok v) :
    ∃ e, c.entity = some e ∧ Frame w v e c.newParent (formerLast w c) ∧
      ((rd w e).parent ≠ some e → c.newParent ≠ some e →
        (rd v e).firstChild = (rd w e).firstChild) ∧
      (SiblingListInv w → ∀ p l x, c.newParent = some p → ChildList w p l →
        formerLast w c x → l.getLast? = some x) := by
  cases c with
  | removeParent entity =>
    cases entity with
    | none => simp [Call.run, removeParent] at hrun
    | some e =>
      have hf := removeParent_frame w v e hrun
      refine ⟨e, rfl, hf, ?_, ?_⟩
      · intro h1 _
        exact hf.2.2.2.1 e h1 (by simp [Call.newParent])
      · intro _ p l x _ _ hx
        exact absurd hx (fun hc => hc)
  | setParent entity parent =>
    have hrun2 : setParentVal fuel w entity parent = .ok v := hrun
    cases entity with
    | none => simp [setParentVal, removeParent] at hrun2
    | some e =>
      obtain ⟨w1, p, w4, hp, h1, -, -⟩ := setParent_cases fuel w v e parent hrun2
      subst hp
      have hf := setParent_frame fuel w v e p hrun2
      refine ⟨e, rfl, ?_, ?_, ?_⟩
      · obtain ⟨f0, f1, f2, f3, f4, f5⟩ := hf
        refine ⟨f0, f1, f2, f3, f4, fun x hx hx2 hx3 => f5 x hx hx2 ?_⟩
        rintro ⟨w2, h2, hw⟩
        exact hx3 ⟨w2, p, rfl, h2, hw⟩
      · intro h1 h2
        exact hf.2.2.2.1 e h1 h2
      · intro hinv p2 l x hp2 hL hx
        have hpp : p2 = p := (Option.some.inj hp2).symm
        subst hpp
        obtain ⟨w2, p3, hp3, h2, hw⟩ := hx
        have hpq : p3 = p2 := (Option.some.inj hp3).symm
        subst hpq
        obtain ⟨l2, hl2, hlast⟩ := removeParent_keeps_last w w2 e p3 l hinv hL h2
        rw [← hlast]
        exact walkEnd_childList w2 p3 x l2 hl2 hw

theorem C11_frame_of_mutators_witness :
    ∃ e, (Call.setParent (some 2) (some 1)).entity = some e ∧
      Frame threeChildren
        (worldAfter 3 [.setParent (some 1) (some 0), .setParent (some 2) (some 0),
          .setParent (some 3) (some 0), .setParent (some 2) (some 1)]) e
        (Call.setParent (some 2) (some 1)).newParent
        (formerLast threeChildren (.setParent (some 2) (some 1))) ∧
      ((rd threeChildren e).parent ≠ some e →
        (Call.setParent (some 2) (some 1)).newParent ≠ some e →
        (rd (worldAfter 3 [.setParent (some 1) (some 0), .setParent (some 2) (some 0),
          .setParent (some 3) (some 0), .setParent (some 2) (some 1)]) e).firstChild
          = (rd threeChildren e).firstChild) ∧
      (SiblingListInv threeChildren → ∀ p l x,
        (Call.setParent (some 2) (some 1)).newParent = some p →
        ChildList threeChildren p l →
        formerLast threeChildren (.setParent (some 2) (some 1)) x → l.getLast? = some x) :=
  C11_frame_of_mutators 3 threeChildren _ (.setParent (some 2) (some 1)) rfl

/-! ## Acyclicity of the parent links -/

/-- The parent field of every entity after a completed `setParent`. -/
theorem setParent_parent (fuel : Nat) (w v : World) (e p : Nat)
    (h : setParentVal fuel w (some e) (some p) = .ok v) (x : Nat) :
    (rd v x).parent = if x = e then some p else (rd w x).parent := by
  obtain ⟨w1, p2, w4, hp2, h1, hw4, hc⟩ := setParent_cases fuel w v e (some p) h
  have hpp : p2 = p := (Option.some.inj hp2).symm
  subst hpp
  obtain ⟨c1, -, -, -⟩ := removeParent_cleared w w1 e h1
  have hf := (removeParent_frame w w1 e h1).2.2.1
  subst hw4
  by_cases hx : x = e
  · subst hx
    rcases hc with ⟨-, rfl⟩ | ⟨l, -, -, rfl⟩ <;> simp [c1]
  · rcases hc with ⟨-, rfl⟩ | ⟨l, -, -, rfl⟩ <;> simp [hx, hf x hx]

/-- A walk along the parent links of `v` from `p`, when `v` is `w` with the one
link from `e` to `p` replaced, is a walk in `w`, unless `e` is reached. -/
theorem links_from_new_parent (w v : World) (e p : Nat)
    (hv : ∀ x y, ParentLink v x y → (x = e ∧ y = p) ∨ ParentLink w x y)
    (hdesc : ¬ Relation.ReflTransGen (ParentLink w) p e) (b : Nat)
    (h : Relation.ReflTransGen (ParentLink v) p b) :
    Relation.ReflTransGen (ParentLink w) p b := by
  induction h with
  | refl => exact Relation.ReflTransGen.refl
  | tail _ hbc ih =>
    rcases hv _ _ hbc with ⟨hb, -⟩ | hw
    · subst hb; exact absurd ih hdesc
    · exact Relation.ReflTransGen.tail ih hw

theorem links_split (w v : World) (e p : Nat)
    (hv : ∀ x y, ParentLink v x y → (x = e ∧ y = p) ∨ ParentLink w x y) (a b : Nat)
    (h : Relation.TransGen (ParentLink v) a b) :
    Relation.TransGen (ParentLink w) a b ∨
      (Relation.ReflTransGen (ParentLink w) a e ∧
        Relation.ReflTransGen (ParentLink v) p b) := by
  induction h with
  | single hab =>
    rcases hv _ _ hab with ⟨ha, hb⟩ | hw
    · subst ha; subst hb
      exact Or.inr ⟨Relation.ReflTransGen.refl, Relation.ReflTransGen.refl⟩
    · exact Or.inl (Relation.TransGen.single hw)
  | tail _ hbc ih =>
    rcases ih with ih | ⟨ih1, ih2⟩
    · rcases hv _ _ hbc with ⟨hb, hc⟩ | hw
      · subst hb; subst hc
        exact Or.inr ⟨ih.to_reflTransGen, Relation.ReflTransGen.refl⟩
      · exact Or.inl (Relation.TransGen.tail ih hw)
    · exact Or.inr ⟨ih1, Relation.ReflTransGen.tail ih2 hbc⟩

/-- Replacing the parent link of `e` by a link to `p` keeps a forest a forest
when `p` is neither `e` nor a descendant of `e`. -/
theorem forest_of_relink (w v : World) (e p : Nat) (hforest : Forest w)
    (hv : ∀ x y, ParentLink v x y → (x = e ∧ y = p) ∨ ParentLink w x y)
    (hpe : p ≠ e) (hdesc : ¬ Ancestor w e p) : Forest v := by
  have hd : ¬ Relation.ReflTransGen (ParentLink w) p e := by
    intro h
    rcases Relation.reflTransGen_iff_eq_or_transGen.1 h with h | h
    · exact hpe h.symm
    · exact hdesc h
  intro x hx
  rcases links_split w v e p hv x x hx with h | ⟨h1, h2⟩
  · exact hforest x h
  · have h3 := links_from_new_parent w v e p hv hd x h2
    exact hd (h3.trans h1)

theorem no_ancestor_of_root (w : World) (a x : Nat) (h : (rd w x).parent = none) :
    ¬ Ancestor w a x := by
  intro ha
  obtain ⟨y, hy, -⟩ := Relation.TransGen.head'_iff.1 ha
  have : (rd w x).parent = some y := hy
  rw [h] at this
  exact absurd this (by simp)

theorem oneChild_forest : Forest oneChild := by
  refine forest_of_relink freshWorld oneChild 1 0
    (fun x => no_ancestor_of_root freshWorld x x rfl) ?_ (by decide)
    (no_ancestor_of_root freshWorld 1 0 rfl)
  intro x y hxy
  have hxy2 : (rd oneChild x).parent = some y := hxy
  rw [setParent_parent 1 freshWorld oneChild 1 0 rfl x] at hxy2
  by_cases hx : x = 1
  · simp only [hx, if_true] at hxy2
    exact Or.inl ⟨hx, (Option.some.inj hxy2).symm⟩
  · simp only [hx, if_false] at hxy2
    exact Or.inr hxy2

/-- C12: in a state that satisfies the sibling-list invariant and whose parent
links form a forest, for an entity `e` without parent and a `p` that is neither
`e` nor a descendant of `e`, every completed `setParent(e, p)` leaves a forest
(and the invariant), and the call completes when `e` holds a component and the
step budget is at least the number of children of `p`. The precondition is not
checked by the code: on a fresh entity `x`, `setParent(x, x)` completes and
makes `x` its own parent and first child, so that the parent links are no
forest any more. -/
theorem C12_forest_needs_precondition (w : World) (e p : Nat)
    (hinv : SiblingListInv w) (hforest : Forest w) (hp : (rd w e).parent = none)
    (hpe : p ≠ e) (hdesc : ¬ Ancestor w e p) :
    (∀ fuel v, setParent fuel w (.var (some e)) (.var (some p)) = .ok v →
      Forest v ∧ SiblingListInv v) ∧
    ((w e).isSome = true → ∃ l, ChildList w p l ∧ ∀ fuel, l.length ≤ fuel →
      ∃ v, setParent fuel w (.var (some e)) (.var (some p)) = .ok v) ∧
    (∀ (u : World) (x k : Nat), u x = some default →
      ∃ v, setParent k u (.var (some x)) (.var (some x)) = .ok v ∧ (rd v x).parent = some x ∧
        (rd v x).firstChild = some x ∧ ¬ Forest v) := by
  refine ⟨?_, ?_, ?_⟩
  · intro fuel v h
    refine ⟨forest_of_relink w v e p hforest ?_ hpe hdesc,
      setParent_inv fuel w v _ _ hinv h⟩
    intro x y hxy
    have hxy2 : (rd v x).parent = some y := hxy
    rw [setParent_parent fuel w v e p h x] at hxy2
    by_cases hx : x = e
    · simp only [hx, if_true] at hxy2
      exact Or.inl ⟨hx, (Option.some.inj hxy2).symm⟩
    · simp only [hx, if_false] at hxy2
      exact Or.inr hxy2
  · intro hes
    obtain ⟨l, hl⟩ := hinv p
    refine ⟨l, hl, fun fuel hf => ?_⟩
    obtain ⟨v, hv, -⟩ := setParent_root fuel w e p l hes hp hl hf
    exact ⟨v, hv⟩
  · intro u x k hux
    have hes : (u x).isSome = true := by simp [hux]
    have hrd : rd u x = default := by simp [rd, hux]
    have h := setParent_first_child k u x x hes (by rw [hrd]; rfl) (by rw [hrd]; rfl)
    have hpar := setParent_parent k u _ x x h x
    refine ⟨_, h, by simpa using hpar, by simp [hes], ?_⟩
    intro hf
    exact hf x (Relation.TransGen.single (by simpa [ParentLink] using hpar))

theorem C12_forest_needs_precondition_witness :
    (∀ fuel v, setParent fuel oneChild (.var (some 2)) (.var (some 1)) = .ok v →
      Forest v ∧ SiblingListInv v) ∧
    ((oneChild 2).isSome = true → ∃ l, ChildList oneChild 1 l ∧ ∀ fuel, l.length ≤ fuel →
      ∃ v, setParent fuel oneChild (.var (some 2)) (.var (some 1)) = .ok v) ∧
    (∀ (u : World) (x k : Nat), u x = some default →
      ∃ v, setParent k u (.var (some x)) (.var (some x)) = .ok v ∧ (rd v x).parent = some x ∧
        (rd v x).firstChild = some x ∧ ¬ Forest v) :=
  C12_forest_needs_precondition oneChild 2 1 (worldAfter_inv _ _) oneChild_forest rfl
    (by decide) (by
      intro h
      obtain ⟨y, hy, hrest⟩ := Relation.TransGen.head'_iff.1 h
      have hy0 : y = 0 := by
        have h1 : (rd oneChild 1).parent = some 0 := rfl
        have h2 : (rd oneChild 1).parent = some y := hy
        rw [h1] at h2
        exact (Option.some.inj h2).symm
      subst hy0
      rcases Relation.reflTransGen_iff_eq_or_transGen.1 hrest with h0 | h0
      · exact absurd h0 (by decide)
      · exact no_ancestor_of_root oneChild 2 0 rfl h0)

/-! ## The claim on the model matrix -/

/-- C7 (counterexample): entity 2 is a child of 1, itself a child of 0, and
every entity has the matrix 2; the model matrix of entity 2 is the product of
two matrices, the resolved world-space matrix the product of three. -/
theorem C7_model_matrix_skips_grandparent :
    (rd grandchild 2).parent = some 1 ∧ (rd grandchild 1).parent = some 0 ∧
      modelMatrix (fun _ => some (2 : Matrix (Fin 4) (Fin 4) ℤ)) (rd grandchild 2) 2
        ≠ resolvedMatrix grandchild (fun _ => some (2 : Matrix (Fin 4) (Fin 4) ℤ)) 3
            (rd grandchild 2) 2 := by
  refine ⟨rfl, rfl, ?_⟩
  have h1 : (rd grandchild 2).parent = some 1 := rfl
  have h2 : (rd grandchild 1).parent = some 0 := rfl
  have h3 : (rd grandchild 0).parent = none := rfl
  simp only [modelMatrix, resolvedMatrix, h1, h2, h3]
  intro h
  have h4 : (2 * 2 : Matrix (Fin 4) (Fin 4) ℤ) = ((4 : ℤ) : Matrix (Fin 4) (Fin 4) ℤ) := by
    norm_num
  have h8 : (2 * 2 * 2 : Matrix (Fin 4) (Fin 4) ℤ) = ((8 : ℤ) : Matrix (Fin 4) (Fin 4) ℤ) := by
    norm_num
  rw [h8, h4] at h
  have h0 := congrFun (congrFun h 0) 0
  change Matrix.diagonal (fun _ : Fin 4 => (4 : ℤ)) 0 0
    = Matrix.diagonal (fun _ : Fin 4 => (8 : ℤ)) 0 0 at h0
  rw [Matrix.diagonal_apply_eq, Matrix.diagonal_apply_eq] at h0
  exact absurd h0 (by decide)

/-- C7 (amended): the model matrix composes one level only. It is the own
matrix when the parent is null or has no Transform, and parent matrix times own
matrix otherwise, whatever the ancestors of the parent; so it is the resolved
world-space matrix cut after one level, and the resolved world-space matrix
itself whenever the parent has no parent with a Transform. -/
theorem C7_model_matrix_one_level {M : Type} [Monoid M] (w : World)
    (transforms : Nat → Option M) (h : Hierarchy) (own : M) (depth : Nat)
    (htop : ∀ p g, h.parent = some p → (rd w p).parent = some g → transforms g = none) :
    modelMatrix transforms h own = resolvedMatrix w transforms (depth + 1) h own ∧
      modelMatrix transforms h own = resolvedMatrix w transforms 1 h own ∧
      (h.parent = none → modelMatrix transforms h own = own) ∧
      (∀ p, h.parent = some p → transforms p = none → modelMatrix transforms h own = own) ∧
      (∀ p m, h.parent = some p → transforms p = some m →
        modelMatrix transforms h own = m * own) := by
  refine ⟨?_, ?_, ?_, ?_, ?_⟩
  · cases hp : h.parent with
    | none => simp [modelMatrix, resolvedMatrix, hp]
    | some p =>
      cases ht : transforms p with
      | none => simp [modelMatrix, resolvedMatrix, hp, ht]
      | some m =>
        simp only [modelMatrix, resolvedMatrix, hp, ht]
        cases depth with
        | zero => simp [resolvedMatrix]
        | succ d =>
          cases hg : (rd w p).parent with
          | none => simp [resolvedMatrix, hg]
          | some g => simp [resolvedMatrix, hg, htop p g hp hg]
  · cases hp : h.parent with
    | none => simp [modelMatrix, resolvedMatrix, hp]
    | some p =>
      cases ht : transforms p with
      | none => simp [modelMatrix, resolvedMatrix, hp, ht]
      | some m => simp [modelMatrix, resolvedMatrix, hp, ht]
  · intro hp; simp [modelMatrix, hp]
  · intro p hp ht; simp [modelMatrix, hp, ht]
  · intro p m hp ht; simp [modelMatrix, hp, ht]

theorem C7_model_matrix_one_level_witness :
    modelMatrix (fun _ => some (2 : Matrix (Fin 4) (Fin 4) ℤ)) (rd grandchild 1) 2
        = resolvedMatrix grandchild (fun _ => some (2 : Matrix (Fin 4) (Fin 4) ℤ)) (3 + 1)
            (rd grandchild 1) 2 ∧
      modelMatrix (fun _ => some (2 : Matrix (Fin 4) (Fin 4) ℤ)) (rd grandchild 1) 2
        = resolvedMatrix grandchild (fun _ => some (2 : Matrix (Fin 4) (Fin 4) ℤ)) 1
            (rd grandchild 1) 2 ∧
      ((rd grandchild 1).parent = none →
        modelMatrix (fun _ => some (2 : Matrix (Fin 4) (Fin 4) ℤ)) (rd grandchild 1) 2 = 2) ∧
      (∀ p, (rd grandchild 1).parent = some p →
        (fun _ => some (2 : Matrix (Fin 4) (Fin 4) ℤ)) p = none →
        modelMatrix (fun _ => some (2 : Matrix (Fin 4) (Fin 4) ℤ)) (rd grandchild 1) 2 = 2) ∧
      (∀ p m, (rd grandchild 1).parent = some p →
        (fun _ => some (2 : Matrix (Fin 4) (Fin 4) ℤ)) p = some m →
        modelMatrix (fun _ => some (2 : Matrix (Fin 4) (Fin 4) ℤ)) (rd grandchild 1) 2
          = m * 2) :=
  C7_model_matrix_one_level grandchild (fun _ => some (2 : Matrix (Fin 4) (Fin 4) ℤ))
    (rd grandchild 1) 2 3 (by
      intro p g hp hg
      have hp1 : (rd grandchild 1).parent = some 0 := rfl
      rw [hp1] at hp
      have hp0 : p = 0 := (Option.some.inj hp).symm
      subst hp0
      have : (rd grandchild 0).parent = none := rfl
      rw [this] at hg
      exact absurd hg (by simp))

end Complexity
